import Mathlib

set_option maxRecDepth 100000

/-!
Shallow embedding of `src/doubly_new.rs` (pykulytsky/wal): a lock-free
doubly-linked list with a construction-time sentinel, verified here in its
single-threaded executions.

Modelling conventions:
* The heap is the list `nodes`; a node id is its index, `Collector::link_boxed`
  appends at the end. Nodes are never removed from the heap: `Collector::retire`
  is recorded by bumping the node's `retired` counter.
* `AtomicPtr` fields become `Option Nat` (`none` = null pointer).
* `inner : MaybeUninit<ManuallyDrop<T>>` becomes `Option T`; `none` is the
  uninitialized state. `ptr::read` of the slot returns the `Option T` as is and
  bumps the `consumed` counter (it does not clear the slot, exactly like
  `ptr::read`); a `consumed` count above 1, or a read returning `none`,
  marks behaviour that is undefined in the Rust source.
* `len : AtomicUsize` becomes a natural kept below `2 ^ 64`; `fetch_add` /
  `fetch_sub` wrap modulo `2 ^ 64` like `usize` arithmetic.
* In a single-threaded execution every `compare_exchange` whose expected value
  was loaded in the same loop iteration succeeds; the embedding still performs
  the comparison where the compared value could differ across iterations.
  The retry loops take explicit fuel; `nodes.length + 1` bounds the number of
  iterations actually needed in every reachable state (proved below).
-/

/-- Modulus of `usize` arithmetic on the 64-bit target. -/
def usizeSize : Nat := 2 ^ 64

/-- Embedding of `Node<T>`: payload slot, the two atomic links, plus
instrumentation counters for `ptr::read` of the slot (`consumed`) and
`Collector::retire` (`retired`). -/
structure Node (T : Type) where
  inner : Option T
  next : Option Nat
  prev : Option Nat
  consumed : Nat
  retired : Nat
deriving DecidableEq

/-- Embedding of `LinkedList<T>`: the heap of all nodes ever allocated plus the
`head`, `tail` and `len` fields. The `Collector` itself carries no list state
beyond the heap. -/
structure LinkedList (T : Type) where
  nodes : List (Node T)
  head : Nat
  tail : Nat
  len : Nat
deriving DecidableEq

variable {T : Type}

/-- Dereference a node pointer. -/
def LinkedList.getNode (s : LinkedList T) (i : Nat) : Option (Node T) :=
  s.nodes[i]?

/-- Load of a node's `next` field (null for a dangling id). -/
def LinkedList.nextOf (s : LinkedList T) (i : Nat) : Option Nat :=
  (s.nodes[i]?).bind Node.next

/-- Load of a node's `prev` field. -/
def LinkedList.prevOf (s : LinkedList T) (i : Nat) : Option Nat :=
  (s.nodes[i]?).bind Node.prev

/-- Read of a node's payload slot (`none` = slot uninitialized). -/
def LinkedList.innerOf (s : LinkedList T) (i : Nat) : Option T :=
  (s.nodes[i]?).bind Node.inner

/-- How many times the node's payload slot has been `ptr::read`. -/
def LinkedList.consumedOf (s : LinkedList T) (i : Nat) : Nat :=
  ((s.nodes[i]?).map Node.consumed).getD 0

/-- How many times the node has been handed to `Collector::retire`. -/
def LinkedList.retiredOf (s : LinkedList T) (i : Nat) : Nat :=
  ((s.nodes[i]?).map Node.retired).getD 0

/-- Update the node at index `i` (identity when out of range). -/
def modNode (f : Node T → Node T) : List (Node T) → Nat → List (Node T)
  | [], _ => []
  | n :: rest, 0 => f n :: rest
  | n :: rest, i + 1 => n :: modNode f rest i

/-- Store to a node's `next` field. -/
def LinkedList.setNext (s : LinkedList T) (i : Nat) (v : Option Nat) : LinkedList T :=
  { s with nodes := modNode (fun n => { n with next := v }) s.nodes i }

/-- Store to a node's `prev` field. -/
def LinkedList.setPrev (s : LinkedList T) (i : Nat) (v : Option Nat) : LinkedList T :=
  { s with nodes := modNode (fun n => { n with prev := v }) s.nodes i }

/-- `LinkedList::new`: one sentinel node with an uninitialized slot and null
links, published as both `head` and `tail`; `len` starts at zero. -/
def LinkedList.new : LinkedList T :=
  ⟨[⟨none, none, none, 0, 0⟩], 0, 0, 0⟩

/-- `LinkedList::push_back_internal`, one iteration of the append protocol with
`onto` the previously loaded tail and `newN` the freshly allocated node: if
`onto.next` is non-null, best-effort advance `tail` and report failure;
otherwise CAS `onto.next` from null to `newN` (in a single-threaded execution
this succeeds, the field was just read as null), store `newN.prev := onto`,
best-effort advance `tail` to `newN`, and report success. -/
def LinkedList.push_back_internal (s : LinkedList T) (onto newN : Nat) :
    LinkedList T × Bool :=
  match s.nextOf onto with
  | some nxt =>
      (if s.tail = onto then { s with tail := nxt } else s, false)
  | none =>
      let s1 := s.setNext onto (some newN)
      let s2 := s1.setPrev newN (some onto)
      let s3 := if s2.tail = onto then { s2 with tail := newN } else s2
      (s3, true)

/-- The retry loop of `LinkedList::push_back`: reload `tail` and run
`push_back_internal` until it reports success (or fuel runs out, which the
invariant below shows never happens in a reachable state). -/
def LinkedList.push_back_loop (newN : Nat) : LinkedList T → Nat → LinkedList T × Bool
  | s, 0 => (s, false)
  | s, fuel + 1 =>
    match s.push_back_internal s.tail newN with
    | (s1, true) => (s1, true)
    | (s1, false) => s1.push_back_loop newN fuel

/-- `LinkedList::push_back`: allocate the node holding `t`, loop until linked,
then `len.fetch_add(1)`. -/
def LinkedList.push_back (s : LinkedList T) (t : T) : LinkedList T :=
  let newN := s.nodes.length
  let s1 : LinkedList T := { s with nodes := s.nodes ++ [⟨some t, none, none, 0, 0⟩] }
  match s1.push_back_loop newN (s1.nodes.length) with
  | (s2, true) => { s2 with len := (s2.len + 1) % usizeSize }
  | (s2, false) => s2

/-- `LinkedList::push_front_internal`, the mirror image of
`push_back_internal` with `head`/`prev` in place of `tail`/`next`. -/
def LinkedList.push_front_internal (s : LinkedList T) (onto newN : Nat) :
    LinkedList T × Bool :=
  match s.prevOf onto with
  | some prv =>
      (if s.head = onto then { s with head := prv } else s, false)
  | none =>
      let s1 := s.setPrev onto (some newN)
      let s2 := s1.setNext newN (some onto)
      let s3 := if s2.head = onto then { s2 with head := newN } else s2
      (s3, true)

/-- The retry loop of `LinkedList::push_front`. -/
def LinkedList.push_front_loop (newN : Nat) : LinkedList T → Nat → LinkedList T × Bool
  | s, 0 => (s, false)
  | s, fuel + 1 =>
    match s.push_front_internal s.head newN with
    | (s1, true) => (s1, true)
    | (s1, false) => s1.push_front_loop newN fuel

/-- `LinkedList::push_front`: allocate the node holding `t`, loop until linked,
then `len.fetch_add(1)`. -/
def LinkedList.push_front (s : LinkedList T) (t : T) : LinkedList T :=
  let newN := s.nodes.length
  let s1 : LinkedList T := { s with nodes := s.nodes ++ [⟨some t, none, none, 0, 0⟩] }
  match s1.push_front_loop newN (s1.nodes.length) with
  | (s2, true) => { s2 with len := (s2.len + 1) % usizeSize }
  | (s2, false) => s2

/-- Effect of `consume_and_retire` on the node itself: one more `ptr::read` of
the slot and one more `retire`. -/
def bumpRetire (n : Node T) : Node T :=
  { n with consumed := n.consumed + 1, retired := n.retired + 1 }

/-- `LinkedList::consume_and_retire(p)`: `ptr::read` the payload slot of `p`
(returned value; `none` if the slot was uninitialized, which is undefined
behaviour in the source), retire `p`, and `len.fetch_sub(1)` with `usize`
wrap-around. -/
def LinkedList.consume_and_retire (s : LinkedList T) (p : Nat) :
    LinkedList T × Option T :=
  let data := s.innerOf p
  let s1 : LinkedList T := { s with nodes := modNode bumpRetire s.nodes p }
  ({ s1 with len := (s1.len + (usizeSize - 1)) % usizeSize }, data)

/-- `LinkedList::pop_front_internal`: load `head` as `h` and `h.next` as `n`;
if `n` is null report `Ok(None)`; otherwise CAS `head` from `h` to `n` (the
comparison is kept although single-threaded it always succeeds), then if `tail`
still equals `h` best-effort advance it to `n`, and `consume_and_retire(n)`.
The outer `Option` is the `Result` (`none` = `Err`, retry); the middle one is
the emptiness answer; the inner one is the possibly-uninitialized payload. -/
def LinkedList.pop_front_internal (s : LinkedList T) :
    LinkedList T × Option (Option (Option T)) :=
  let h := s.head
  match s.nextOf h with
  | some n =>
    if s.head = h then
      let s1 : LinkedList T := { s with head := n }
      let s2 := if s1.tail = h then { s1 with tail := n } else s1
      let r := s2.consume_and_retire n
      (r.1, some (some r.2))
    else (s, none)
  | none => (s, some none)

/-- The retry loop of `LinkedList::pop_front`. -/
def LinkedList.pop_front_loop : LinkedList T → Nat → LinkedList T × Option (Option T)
  | s, 0 => (s, none)
  | s, fuel + 1 =>
    match s.pop_front_internal with
    | (s1, some r) => (s1, r)
    | (s1, none) => s1.pop_front_loop fuel

/-- `LinkedList::pop_front`. In a single-threaded execution the head CAS in
`pop_front_internal` never fails, so one unit of fuel always suffices. -/
def LinkedList.pop_front (s : LinkedList T) : LinkedList T × Option (Option T) :=
  s.pop_front_loop 1

/-- A public operation of the container. -/
inductive Op (T : Type) where
  | push_back (v : T)
  | push_front (v : T)
  | pop_front
deriving DecidableEq

/-- Apply one public operation (discarding `pop_front`'s output). -/
def applyOp (s : LinkedList T) : Op T → LinkedList T
  | .push_back v => s.push_back v
  | .push_front v => s.push_front v
  | .pop_front => (s.pop_front).1

/-- Run a sequence of public operations, collecting the `pop_front` outputs in
order. -/
def runOps (s : LinkedList T) : List (Op T) → LinkedList T × List (Option (Option T))
  | [] => (s, [])
  | .push_back v :: rest => runOps (s.push_back v) rest
  | .push_front v :: rest => runOps (s.push_front v) rest
  | .pop_front :: rest =>
    let p := s.pop_front
    let r := runOps p.1 rest
    (r.1, p.2 :: r.2)

/-- Number of push operations (either end) in an operation sequence. -/
def countPushes : List (Op T) → Nat
  | [] => 0
  | .push_back _ :: rest => countPushes rest + 1
  | .push_front _ :: rest => countPushes rest + 1
  | .pop_front :: rest => countPushes rest

/-- Number of `pop_front` outputs that returned a value (`Some`). -/
def countSomePops (outs : List (Option (Option T))) : Nat :=
  (outs.filter Option.isSome).length

/-- The four-operation prefix of the wrap-around scenario:
`push_front(10); pop_front(); push_front(20); pop_front()`. -/
def wrapOps : List (Op Nat) :=
  [.push_front 10, .pop_front, .push_front 20, .pop_front]

/-- The full five-operation wrap-around scenario, ending in one more
`pop_front`. -/
def wrapOps5 : List (Op Nat) :=
  wrapOps ++ [.pop_front]

/-- The state reached from a fresh list by `wrapOps`. -/
def wrapState : LinkedList Nat :=
  (runOps (LinkedList.new) wrapOps).1

/-- Once-set link fields of `s` persist in `s'`: every non-null `prev` and
`next` value is unchanged. All public operations preserve links in this sense,
which is the write-once discipline of the algorithm. -/
def LinksPreserved (s s' : LinkedList T) : Prop :=
  (∀ i p, s.prevOf i = some p → s'.prevOf i = some p)
  ∧ (∀ i q, s.nextOf i = some q → s'.nextOf i = some q)

/-- States reachable from a fresh list by public operations — the
single-threaded executions of the container. -/
inductive Reachable : LinkedList T → Prop where
  | init : Reachable (LinkedList.new)
  | step (s : LinkedList T) (op : Op T) : Reachable s → Reachable (applyOp s op)

/-- The ids `c` form a forward chain: consecutive elements are linked by
`next` and the last element's `next` is null. -/
def NextLinked (s : LinkedList T) : List Nat → Prop
  | [] => True
  | [a] => s.nextOf a = none
  | a :: b :: r => s.nextOf a = some b ∧ NextLinked s (b :: r)

/-- The ids `c` are back-linked: the first element's `prev` is `p` and each
later element's `prev` points to its predecessor in `c`. -/
def PrevLinked (s : LinkedList T) : Option Nat → List Nat → Prop
  | _, [] => True
  | p, b :: r => s.prevOf b = p ∧ PrevLinked s (some b) r

/-- Iterate the `next` pointer `k` times from node `i`. -/
def nextIter (s : LinkedList T) : Nat → Nat → Option Nat
  | i, 0 => some i
  | i, k + 1 =>
    match s.nextOf i with
    | none => none
    | some j => nextIter s j k

/-- The structural invariant of every reachable state: all allocated nodes
form one duplicate-free doubly-linked chain `c`; `head` and `tail` both lie on
it, with `head` at or before `tail`. -/
def ChainOf (s : LinkedList T) (cs : List Nat) : Prop :=
  cs.Nodup
  ∧ (∀ i, i ∈ cs ↔ i < s.nodes.length)
  ∧ NextLinked s cs
  ∧ PrevLinked s none cs
  ∧ (∃ hi hj : Nat, hi ≤ hj ∧ cs[hi]? = some s.head ∧ cs[hj]? = some s.tail)

/-- A state satisfies the invariant when some chain witnesses it. -/
def ChainInv (s : LinkedList T) : Prop := ∃ cs, ChainOf s cs

/-- Real nodes of the canonical push-back-only state: the node carrying the
`(p+1)`-st pushed value has heap id `p+1`, `prev` id `p`, `next` id `p+2`
(none for the last), and has been consumed exactly when its id is at most `j`,
the number of pops performed so far. -/
def backAux (j : Nat) : Nat → List T → List (Node T)
  | _, [] => []
  | p, v :: rest =>
    ⟨some v, (match rest with | [] => none | _ :: _ => some (p + 2)), some p,
      (if p + 1 ≤ j then 1 else 0), (if p + 1 ≤ j then 1 else 0)⟩ :: backAux j (p + 1) rest

/-- Canonical state of a fresh list after `push_back`-ing the values `vs` and
then popping `j ≤ vs.length` times: the sentinel (id `0`) is followed by the
chain `1, …, vs.length`; `head` has advanced to node `j`, `tail` is the last
node, and `len` counts the remaining values. -/
def backState (vs : List T) (j : Nat) : LinkedList T :=
  { nodes := ⟨none, (if vs.length = 0 then none else some 1), none, 0, 0⟩
      :: backAux j 0 vs,
    head := j,
    tail := vs.length,
    len := (vs.length - j) % usizeSize }

/-- Push a whole list of values at the back, in order. -/
def pushAll (s : LinkedList T) (vs : List T) : LinkedList T :=
  vs.foldl LinkedList.push_back s

/-- Perform `n` successive `pop_front` calls, collecting the outputs. -/
def popN : LinkedList T → Nat → LinkedList T × List (Option (Option T))
  | s, 0 => (s, [])
  | s, n + 1 =>
    let p := s.pop_front
    let r := popN p.1 n
    (r.1, p.2 :: r.2)

/-- C1: the claim says that after `push_front(v1), push_front(v2),
push_front(v3)` on a fresh list, three `pop_front()` calls return
`Some(v3), Some(v2), Some(v1)` and a fourth returns `None`. The code instead
returns `Some(v2)`, `Some(v1)`, then `Some` of the construction sentinel's
uninitialized slot (`some none` in the embedding; the repository's own test
observes the garbage value `0` there), then `None`: `pop_front` removes
`head.next`, so the node holding `v3` is never popped and the sentinel is. -/
theorem claim_C1_push_front_pops_eval :
    (runOps (LinkedList.new) [.push_front 1, .push_front 2, .push_front 3,
      .pop_front, .pop_front, .pop_front, .pop_front]).2 =
      [some (some 2), some (some 1), some none, none] := by decide

/-- C2: the claim says the construction sentinel's payload slot is never read
and no slot is extracted twice. In the code, `push_front(1)` followed by
`pop_front()` reads the sentinel's permanently unfilled slot (`consumedOf 0`
becomes `1` while its slot is still `none`), and the five-operation wrap
scenario reads it a second time (`consumedOf 0 = 2`). -/
theorem claim_C2_sentinel_slot_read_eval :
    (((runOps (LinkedList.new) [.push_front 1, .pop_front]).1).consumedOf 0 = 1
      ∧ ((runOps (LinkedList.new) [.push_front 1, .pop_front]).1).innerOf 0 = none)
    ∧ ((runOps (LinkedList.new) wrapOps5).1).consumedOf 0 = 2 := by decide

/-- C3: the claim says draining the list returns exactly the multiset of pushed
values. After `push_front(1)` on a fresh list, draining yields `Some` of the
sentinel's uninitialized slot and then `None`: the pushed value `1` is never
returned (its node became the new anchor) and a never-pushed, unfilled slot is
extracted instead. -/
theorem claim_C3_lost_value_eval :
    (runOps (LinkedList.new) [.push_front 1, .pop_front, .pop_front]).2 =
      [some none, none] := by decide

/-- C5: the claim says `pop_front` returns `None` exactly when the list holds
no real (non-sentinel) elements. The fresh-list part holds: `pop_front` on a
fresh list returns `None` and leaves the state unchanged. But in `wrapState`
the next-chain after `head` consists of exactly the construction sentinel
(node `0`, unfilled slot, null `next`), so the list holds no real element,
yet `pop_front` returns `Some` (of the sentinel's uninitialized slot). -/
theorem claim_C5_empty_iff_eval :
    (((LinkedList.new (T := Nat)).pop_front).2 = none
      ∧ ((LinkedList.new (T := Nat)).pop_front).1 = LinkedList.new)
    ∧ (wrapState.nextOf wrapState.head = some 0
      ∧ wrapState.nextOf 0 = none
      ∧ wrapState.innerOf 0 = none
      ∧ (wrapState.pop_front).2 = some none) := by decide

/-- C6: the claim says that at rest `len()` equals (# pushes) − (# successful
pops) and is zero exactly when the list is empty. After `wrapOps5` there were
2 pushes and 3 value-returning pops, and `len()` is `2 ^ 64 - 1`: it equals
neither the truncated natural difference nor the integer difference, and it is
non-zero although the head's next-chain is empty. -/
theorem claim_C6_len_eval :
    countPushes wrapOps5 = 2
    ∧ countSomePops (runOps (LinkedList.new) wrapOps5).2 = 3
    ∧ ((runOps (LinkedList.new) wrapOps5).1).len = 2 ^ 64 - 1
    ∧ ((runOps (LinkedList.new) wrapOps5).1).len ≠
        countPushes wrapOps5 - countSomePops (runOps (LinkedList.new) wrapOps5).2
    ∧ (((runOps (LinkedList.new) wrapOps5).1).len : Int) ≠
        (countPushes wrapOps5 : Int)
          - (countSomePops (runOps (LinkedList.new) wrapOps5).2 : Int)
    ∧ ((runOps (LinkedList.new) wrapOps5).1).nextOf
        ((runOps (LinkedList.new) wrapOps5).1).head = none
    ∧ ((runOps (LinkedList.new) wrapOps5).1).len ≠ 0 := by decide

/-- C10: after `push_front(10); pop_front(); push_front(20); pop_front()` the
length counter is `0` yet `head.next` is non-null — it points at the
construction sentinel (node `0`), already consumed once. The final
`pop_front()` therefore returns `Some`, consumes and retires the sentinel a
second time, and decrements `len` from `0` so that `len()` returns
`2 ^ 64 - 1`, which exceeds the number of pushes ever performed (2). -/
theorem claim_C10_len_wraps_eval :
    wrapState.len = 0
    ∧ wrapState.nextOf wrapState.head = some 0
    ∧ wrapState.consumedOf 0 = 1
    ∧ (wrapState.pop_front).2 = some none
    ∧ ((wrapState.pop_front).1).len = 2 ^ 64 - 1
    ∧ ((wrapState.pop_front).1).consumedOf 0 = 2
    ∧ ((wrapState.pop_front).1).retiredOf 0 = 2
    ∧ countPushes wrapOps5 = 2
    ∧ 2 < 2 ^ 64 - 1 := by decide

/-- Reading the modified index returns the modified node. -/
theorem modNode_getElem_self (f : Node T → Node T) (ns : List (Node T)) :
    ∀ i : Nat, (modNode f ns i)[i]? = (ns[i]?).map f := by
  induction ns with
  | nil => intro i; cases i <;> simp [modNode]
  | cons n rest ih =>
    intro i
    cases i with
    | zero => simp [modNode]
    | succ j => simpa [modNode] using ih j

/-- Reading any other index is unaffected by `modNode`. -/
theorem modNode_getElem_ne (f : Node T → Node T) (ns : List (Node T)) :
    ∀ i j : Nat, j ≠ i → (modNode f ns i)[j]? = ns[j]? := by
  induction ns with
  | nil => intro i j _; cases i <;> simp [modNode]
  | cons n rest ih =>
    intro i j hne
    cases i with
    | zero =>
      cases j with
      | zero => exact absurd rfl hne
      | succ k => simp [modNode]
    | succ i' =>
      cases j with
      | zero => simp [modNode]
      | succ k => simpa [modNode] using ih i' k (by omega)

/-- Closed form of `pop_front`: in a single-threaded execution the head CAS
always succeeds, so the operation either reports emptiness (null `head.next`)
or advances `head` to `n := head.next`, catches `tail` up when it equalled the
old head, and consumes and retires `n`. -/
theorem LinkedList.pop_front_eq (s : LinkedList T) :
    s.pop_front =
      match s.nextOf s.head with
      | none => (s, none)
      | some n =>
        ({ nodes := modNode bumpRetire s.nodes n,
           head := n,
           tail := if s.tail = s.head then n else s.tail,
           len := (s.len + (usizeSize - 1)) % usizeSize },
         some (s.innerOf n)) := by
  cases h : s.nextOf s.head with
  | none => simp [pop_front, pop_front_loop, pop_front_internal, h]
  | some n =>
    simp only [pop_front, pop_front_loop, pop_front_internal, consume_and_retire,
      innerOf, h, if_pos rfl]
    by_cases ht : s.tail = s.head <;> simp [ht]

/-- C8: for every successful `pop_front` (that is, whenever the loaded head's
`next` is a node `n`), the node whose payload slot is read and which is handed
to `Collector::retire` is exactly `n`, the node the successful CAS just
installed as the new `head` — so at retirement the container's `head` field
points at the retired node — while every other node, in particular the
displaced old head, is left untouched. -/
theorem claim_C8_retires_new_head (s : LinkedList T) (n : Nat)
    (h : s.nextOf s.head = some n) :
    ((s.pop_front).1).head = n
    ∧ (s.pop_front).2 = some (s.innerOf n)
    ∧ ((s.pop_front).1).getNode n = (s.getNode n).map bumpRetire
    ∧ (∀ i, i ≠ n → ((s.pop_front).1).getNode i = s.getNode i) := by
  rw [LinkedList.pop_front_eq, h]
  refine ⟨rfl, rfl, ?_, ?_⟩
  · simpa [LinkedList.getNode] using modNode_getElem_self bumpRetire s.nodes n
  · intro i hi
    simpa [LinkedList.getNode] using modNode_getElem_ne bumpRetire s.nodes n i hi

/-- Witness for C8 at the concrete state reached by one `push_back(1)` from a
fresh list: there the head's `next` is node `1`. -/
theorem claim_C8_retires_new_head_witness :
    ((LinkedList.new (T := Nat)).push_back 1).nextOf
        ((LinkedList.new (T := Nat)).push_back 1).head = some 1
    ∧ (((((LinkedList.new (T := Nat)).push_back 1).pop_front).1).head = 1
      ∧ ((((LinkedList.new (T := Nat)).push_back 1).pop_front).2 =
          some (((LinkedList.new (T := Nat)).push_back 1).innerOf 1))
      ∧ (((((LinkedList.new (T := Nat)).push_back 1).pop_front).1).getNode 1 =
          (((LinkedList.new (T := Nat)).push_back 1).getNode 1).map bumpRetire)
      ∧ (∀ i, i ≠ 1 →
          ((((LinkedList.new (T := Nat)).push_back 1).pop_front).1).getNode i =
            ((LinkedList.new (T := Nat)).push_back 1).getNode i)) :=
  ⟨by decide, claim_C8_retires_new_head ((LinkedList.new (T := Nat)).push_back 1) 1
    (by decide)⟩

theorem LinksPreserved.rfl (s : LinkedList T) : LinksPreserved s s :=
  ⟨fun _ _ h => h, fun _ _ h => h⟩

theorem LinksPreserved.trans {s1 s2 s3 : LinkedList T}
    (h12 : LinksPreserved s1 s2) (h23 : LinksPreserved s2 s3) :
    LinksPreserved s1 s3 :=
  ⟨fun i p h => h23.1 i p (h12.1 i p h), fun i q h => h23.2 i q (h12.2 i q h)⟩

/-- States with the same heap preserve each other's links. -/
theorem LinksPreserved.of_nodes_eq {s s' : LinkedList T} (h : s'.nodes = s.nodes) :
    LinksPreserved s s' := by
  constructor <;> intro i x hx <;>
    simpa [LinkedList.prevOf, LinkedList.nextOf, h] using hx

/-- Writing a `next` field does not change any `prev` field. -/
theorem LinkedList.prevOf_setNext (s : LinkedList T) (i : Nat) (v : Option Nat)
    (j : Nat) : (s.setNext i v).prevOf j = s.prevOf j := by
  unfold LinkedList.prevOf LinkedList.setNext
  by_cases h : j = i
  · subst h; rw [modNode_getElem_self]; cases s.nodes[j]? <;> simp
  · rw [modNode_getElem_ne _ _ _ _ h]

/-- Writing a `prev` field does not change any `next` field. -/
theorem LinkedList.nextOf_setPrev (s : LinkedList T) (i : Nat) (v : Option Nat)
    (j : Nat) : (s.setPrev i v).nextOf j = s.nextOf j := by
  unfold LinkedList.nextOf LinkedList.setPrev
  by_cases h : j = i
  · subst h; rw [modNode_getElem_self]; cases s.nodes[j]? <;> simp
  · rw [modNode_getElem_ne _ _ _ _ h]

/-- Writing one node's `next` leaves every other node's `next` unchanged. -/
theorem LinkedList.nextOf_setNext_ne (s : LinkedList T) (i : Nat) (v : Option Nat)
    (j : Nat) (h : j ≠ i) : (s.setNext i v).nextOf j = s.nextOf j := by
  unfold LinkedList.nextOf LinkedList.setNext
  rw [modNode_getElem_ne _ _ _ _ h]

/-- Writing one node's `prev` leaves every other node's `prev` unchanged. -/
theorem LinkedList.prevOf_setPrev_ne (s : LinkedList T) (i : Nat) (v : Option Nat)
    (j : Nat) (h : j ≠ i) : (s.setPrev i v).prevOf j = s.prevOf j := by
  unfold LinkedList.prevOf LinkedList.setPrev
  rw [modNode_getElem_ne _ _ _ _ h]

/-- Writing the `next` field of an allocated node stores the given value. -/
theorem LinkedList.nextOf_setNext_self (s : LinkedList T) (i : Nat) (v : Option Nat)
    (nd : Node T) (h : s.getNode i = some nd) : (s.setNext i v).nextOf i = v := by
  unfold LinkedList.nextOf LinkedList.setNext
  rw [modNode_getElem_self]
  rw [LinkedList.getNode] at h
  rw [h]
  rfl

/-- Writing the `prev` field of an allocated node stores the given value. -/
theorem LinkedList.prevOf_setPrev_self (s : LinkedList T) (i : Nat) (v : Option Nat)
    (nd : Node T) (h : s.getNode i = some nd) : (s.setPrev i v).prevOf i = v := by
  unfold LinkedList.prevOf LinkedList.setPrev
  rw [modNode_getElem_self]
  rw [LinkedList.getNode] at h
  rw [h]
  rfl

/-- A failing `push_back_internal` step only moves `tail`; the heap is
untouched. -/
theorem LinkedList.push_back_internal_false_nodes (s : LinkedList T)
    (onto newN : Nat) (h : (s.push_back_internal onto newN).2 = false) :
    ((s.push_back_internal onto newN).1).nodes = s.nodes := by
  unfold LinkedList.push_back_internal at h ⊢
  cases hn : s.nextOf onto with
  | some nxt => by_cases ht : s.tail = onto <;> simp [hn, ht]
  | none => simp [hn] at h

/-- One `push_back_internal` step preserves all once-set links, provided the
node being linked has a null `prev` (true of a freshly allocated node). -/
theorem LinkedList.push_back_internal_links (s : LinkedList T) (onto newN : Nat)
    (hp : s.prevOf newN = none) :
    LinksPreserved s (s.push_back_internal onto newN).1 := by
  unfold LinkedList.push_back_internal
  cases hn : s.nextOf onto with
  | some nxt =>
    by_cases ht : s.tail = onto <;> simp [ht] <;> exact LinksPreserved.rfl s
  | none =>
    simp only []
    constructor
    · intro i p hip
      by_cases hi : i = newN
      · subst hi; rw [hp] at hip; exact absurd hip (by simp)
      · have h1 : ((s.setNext onto (some newN)).setPrev newN (some onto)).prevOf i
            = s.prevOf i := by
          rw [LinkedList.prevOf_setPrev_ne _ _ _ _ hi, LinkedList.prevOf_setNext]
        by_cases ht : ((s.setNext onto (some newN)).setPrev newN (some onto)).tail
            = onto <;> simp [ht, LinkedList.prevOf, h1.symm] <;>
          simpa [LinkedList.prevOf] using h1.trans hip
    · intro i q hiq
      by_cases hi : i = onto
      · subst hi; rw [hn] at hiq; exact absurd hiq (by simp)
      · have h1 : ((s.setNext onto (some newN)).setPrev newN (some onto)).nextOf i
            = s.nextOf i := by
          rw [LinkedList.nextOf_setPrev, LinkedList.nextOf_setNext_ne _ _ _ _ hi]
        by_cases ht : ((s.setNext onto (some newN)).setPrev newN (some onto)).tail
            = onto <;> simp [ht, LinkedList.nextOf, h1.symm] <;>
          simpa [LinkedList.nextOf] using h1.trans hiq

/-- The whole `push_back` retry loop preserves once-set links. -/
theorem LinkedList.push_back_loop_links (newN : Nat) :
    ∀ (fuel : Nat) (s : LinkedList T), s.prevOf newN = none →
      LinksPreserved s (s.push_back_loop newN fuel).1 := by
  intro fuel
  induction fuel with
  | zero => intro s _; exact LinksPreserved.rfl s
  | succ f ih =>
    intro s hp
    unfold LinkedList.push_back_loop
    cases hres : s.push_back_internal s.tail newN with
    | mk s1 b =>
      have hlinks : LinksPreserved s s1 := by
        have := s.push_back_internal_links s.tail newN hp
        rwa [hres] at this
      cases b with
      | true => exact hlinks
      | false =>
        have hnodes : s1.nodes = s.nodes := by
          have := s.push_back_internal_false_nodes s.tail newN (by rw [hres])
          rwa [hres] at this
        have hp1 : s1.prevOf newN = none := by
          unfold LinkedList.prevOf at hp ⊢; rwa [hnodes]
        exact hlinks.trans (ih s1 hp1)

/-- Allocation (`Collector::link_boxed`) preserves the links of all existing
nodes. -/
theorem LinkedList.alloc_links (s : LinkedList T) (x : Node T) :
    LinksPreserved s { s with nodes := s.nodes ++ [x] } := by
  constructor <;> intro i y hy
  · unfold LinkedList.prevOf at hy ⊢
    have hlt : i < s.nodes.length := by
      rcases hg : s.nodes[i]? with _ | nd
      · rw [hg] at hy; exact absurd hy (by simp)
      · exact (List.getElem?_eq_some.mp hg).1
    simpa [List.getElem?_append, hlt] using hy
  · unfold LinkedList.nextOf at hy ⊢
    have hlt : i < s.nodes.length := by
      rcases hg : s.nodes[i]? with _ | nd
      · rw [hg] at hy; exact absurd hy (by simp)
      · exact (List.getElem?_eq_some.mp hg).1
    simpa [List.getElem?_append, hlt] using hy

/-- The freshly allocated node starts with null links. -/
theorem LinkedList.alloc_fresh_links (s : LinkedList T) (inner : Option T) :
    (({ s with nodes := s.nodes ++ [⟨inner, none, none, 0, 0⟩] } :
        LinkedList T)).prevOf s.nodes.length = none
    ∧ (({ s with nodes := s.nodes ++ [⟨inner, none, none, 0, 0⟩] } :
        LinkedList T)).nextOf s.nodes.length = none := by
  constructor <;>
    simp [LinkedList.prevOf, LinkedList.nextOf, List.getElem?_concat_length]

/-- Unfolding equation for `push_back`: allocate, then run the loop with fuel
`nodes.length + 1`, then on success bump `len`. -/
theorem LinkedList.push_back_eq (s : LinkedList T) (v : T) :
    s.push_back v =
      match ({ s with nodes := s.nodes ++ [⟨some v, none, none, 0, 0⟩] } :
          LinkedList T).push_back_loop s.nodes.length (s.nodes.length + 1) with
      | (s2, true) => { s2 with len := (s2.len + 1) % usizeSize }
      | (s2, false) => s2 := by
  unfold LinkedList.push_back
  simp

/-- `push_back` preserves once-set links. -/
theorem LinkedList.push_back_links (s : LinkedList T) (v : T) :
    LinksPreserved s (s.push_back v) := by
  have h0 : LinksPreserved s
      ({ s with nodes := s.nodes ++ [⟨some v, none, none, 0, 0⟩] } : LinkedList T) :=
    s.alloc_links _
  have hp := (s.alloc_fresh_links (some v)).1
  rcases hres : ({ s with nodes := s.nodes ++ [⟨some v, none, none, 0, 0⟩] } :
      LinkedList T).push_back_loop s.nodes.length (s.nodes.length + 1) with ⟨s2, b⟩
  have hloop : LinksPreserved
      ({ s with nodes := s.nodes ++ [⟨some v, none, none, 0, 0⟩] } : LinkedList T) s2 := by
    have := LinkedList.push_back_loop_links s.nodes.length (s.nodes.length + 1)
      ({ s with nodes := s.nodes ++ [⟨some v, none, none, 0, 0⟩] } : LinkedList T) hp
    rwa [hres] at this
  rw [LinkedList.push_back_eq, hres]
  cases b
  · exact h0.trans hloop
  · exact (h0.trans hloop).trans (LinksPreserved.of_nodes_eq rfl)

/-- A failing `push_front_internal` step only moves `head`; the heap is
untouched. -/
theorem LinkedList.push_front_internal_false_nodes (s : LinkedList T)
    (onto newN : Nat) (h : (s.push_front_internal onto newN).2 = false) :
    ((s.push_front_internal onto newN).1).nodes = s.nodes := by
  unfold LinkedList.push_front_internal at h ⊢
  cases hn : s.prevOf onto with
  | some prv => by_cases hh : s.head = onto <;> simp [hn, hh]
  | none => simp [hn] at h

/-- One `push_front_internal` step preserves all once-set links, provided the
node being linked has a null `next` (true of a freshly allocated node). -/
theorem LinkedList.push_front_internal_links (s : LinkedList T) (onto newN : Nat)
    (hp : s.nextOf newN = none) :
    LinksPreserved s (s.push_front_internal onto newN).1 := by
  unfold LinkedList.push_front_internal
  cases hn : s.prevOf onto with
  | some prv =>
    by_cases hh : s.head = onto <;> simp [hh] <;> exact LinksPreserved.rfl s
  | none =>
    simp only []
    constructor
    · intro i p hip
      by_cases hi : i = onto
      · subst hi; rw [hn] at hip; exact absurd hip (by simp)
      · have h1 : ((s.setPrev onto (some newN)).setNext newN (some onto)).prevOf i
            = s.prevOf i := by
          rw [LinkedList.prevOf_setNext, LinkedList.prevOf_setPrev_ne _ _ _ _ hi]
        by_cases hh : ((s.setPrev onto (some newN)).setNext newN (some onto)).head
            = onto <;> simp [hh, LinkedList.prevOf, h1.symm] <;>
          simpa [LinkedList.prevOf] using h1.trans hip
    · intro i q hiq
      by_cases hi : i = newN
      · subst hi; rw [hp] at hiq; exact absurd hiq (by simp)
      · have h1 : ((s.setPrev onto (some newN)).setNext newN (some onto)).nextOf i
            = s.nextOf i := by
          rw [LinkedList.nextOf_setNext_ne _ _ _ _ hi, LinkedList.nextOf_setPrev]
        by_cases hh : ((s.setPrev onto (some newN)).setNext newN (some onto)).head
            = onto <;> simp [hh, LinkedList.nextOf, h1.symm] <;>
          simpa [LinkedList.nextOf] using h1.trans hiq

/-- The whole `push_front` retry loop preserves once-set links. -/
theorem LinkedList.push_front_loop_links (newN : Nat) :
    ∀ (fuel : Nat) (s : LinkedList T), s.nextOf newN = none →
      LinksPreserved s (s.push_front_loop newN fuel).1 := by
  intro fuel
  induction fuel with
  | zero => intro s _; exact LinksPreserved.rfl s
  | succ f ih =>
    intro s hp
    unfold LinkedList.push_front_loop
    cases hres : s.push_front_internal s.head newN with
    | mk s1 b =>
      have hlinks : LinksPreserved s s1 := by
        have := s.push_front_internal_links s.head newN hp
        rwa [hres] at this
      cases b with
      | true => exact hlinks
      | false =>
        have hnodes : s1.nodes = s.nodes := by
          have := s.push_front_internal_false_nodes s.head newN (by rw [hres])
          rwa [hres] at this
        have hp1 : s1.nextOf newN = none := by
          unfold LinkedList.nextOf at hp ⊢; rwa [hnodes]
        exact hlinks.trans (ih s1 hp1)

/-- Unfolding equation for `push_front`. -/
theorem LinkedList.push_front_eq (s : LinkedList T) (v : T) :
    s.push_front v =
      match ({ s with nodes := s.nodes ++ [⟨some v, none, none, 0, 0⟩] } :
          LinkedList T).push_front_loop s.nodes.length (s.nodes.length + 1) with
      | (s2, true) => { s2 with len := (s2.len + 1) % usizeSize }
      | (s2, false) => s2 := by
  unfold LinkedList.push_front
  simp

/-- `push_front` preserves once-set links. -/
theorem LinkedList.push_front_links (s : LinkedList T) (v : T) :
    LinksPreserved s (s.push_front v) := by
  have h0 : LinksPreserved s
      ({ s with nodes := s.nodes ++ [⟨some v, none, none, 0, 0⟩] } : LinkedList T) :=
    s.alloc_links _
  have hp := (s.alloc_fresh_links (some v)).2
  rcases hres : ({ s with nodes := s.nodes ++ [⟨some v, none, none, 0, 0⟩] } :
      LinkedList T).push_front_loop s.nodes.length (s.nodes.length + 1) with ⟨s2, b⟩
  have hloop : LinksPreserved
      ({ s with nodes := s.nodes ++ [⟨some v, none, none, 0, 0⟩] } : LinkedList T) s2 := by
    have := LinkedList.push_front_loop_links s.nodes.length (s.nodes.length + 1)
      ({ s with nodes := s.nodes ++ [⟨some v, none, none, 0, 0⟩] } : LinkedList T) hp
    rwa [hres] at this
  rw [LinkedList.push_front_eq, hres]
  cases b
  · exact h0.trans hloop
  · exact (h0.trans hloop).trans (LinksPreserved.of_nodes_eq rfl)

/-- `pop_front` never writes a link field: it preserves all of them, set or
not. -/
theorem LinkedList.pop_front_links (s : LinkedList T) :
    LinksPreserved s ((s.pop_front).1) := by
  rw [LinkedList.pop_front_eq]
  cases h : s.nextOf s.head with
  | none => exact LinksPreserved.rfl s
  | some n =>
    constructor <;> intro i y hy
    · unfold LinkedList.prevOf at hy ⊢
      by_cases hi : i = n
      · subst hi
        rw [modNode_getElem_self]
        rcases hg : s.nodes[i]? with _ | nd
        · rw [hg] at hy; exact absurd hy (by simp)
        · rw [hg] at hy; simpa [bumpRetire] using hy
      · rw [modNode_getElem_ne _ _ _ _ hi]; exact hy
    · unfold LinkedList.nextOf at hy ⊢
      by_cases hi : i = n
      · subst hi
        rw [modNode_getElem_self]
        rcases hg : s.nodes[i]? with _ | nd
        · rw [hg] at hy; exact absurd hy (by simp)
        · rw [hg] at hy; simpa [bumpRetire] using hy
      · rw [modNode_getElem_ne _ _ _ _ hi]; exact hy

/-- Every public operation preserves once-set links. -/
theorem applyOp_links (s : LinkedList T) (op : Op T) :
    LinksPreserved s (applyOp s op) := by
  cases op with
  | push_back v => exact s.push_back_links v
  | push_front v => exact s.push_front_links v
  | pop_front => exact s.pop_front_links

/-- C9: write-once discipline on the link fields. Every public operation
preserves every already-set (non-null) `prev` — so a node's `prev` transitions
from null to non-null at most once and is never changed thereafter — and
symmetrically every already-set `next`. Moreover the success path of
`push_front_internal` links exactly as the claim says: called on a front node
`onto` (null `prev`) with an allocated node `newN`, it succeeds, sets the new
node's `next` to the node it displaces (`onto`) and `onto`'s `prev` — a null
to non-null CAS — to the new node. -/
theorem claim_C9_prev_write_once (s : LinkedList T) (op : Op T)
    (onto newN : Nat) (nd nd2 : Node T)
    (h1 : s.getNode onto = some nd) (h2 : nd.prev = none)
    (h3 : s.getNode newN = some nd2) (h4 : onto ≠ newN) :
    (∀ i p, s.prevOf i = some p → (applyOp s op).prevOf i = some p)
    ∧ (∀ i q, s.nextOf i = some q → (applyOp s op).nextOf i = some q)
    ∧ (s.push_front_internal onto newN).2 = true
    ∧ ((s.push_front_internal onto newN).1).nextOf newN = some onto
    ∧ ((s.push_front_internal onto newN).1).prevOf onto = some newN := by
  refine ⟨(applyOp_links s op).1, (applyOp_links s op).2, ?_⟩
  have hpo : s.prevOf onto = none := by
    unfold LinkedList.prevOf
    rw [LinkedList.getNode] at h1
    rw [h1]
    simpa using h2
  have hg1 : ((s.setPrev onto (some newN)).getNode newN) = some nd2 := by
    unfold LinkedList.getNode LinkedList.setPrev
    rw [modNode_getElem_ne _ _ _ _ (Ne.symm h4)]
    exact h3
  have hnext : ((s.setPrev onto (some newN)).setNext newN (some onto)).nextOf newN
      = some onto :=
    LinkedList.nextOf_setNext_self _ _ _ _ hg1
  have hprev : ((s.setPrev onto (some newN)).setNext newN (some onto)).prevOf onto
      = some newN := by
    rw [LinkedList.prevOf_setNext]
    exact LinkedList.prevOf_setPrev_self _ _ _ _ h1
  unfold LinkedList.push_front_internal
  rw [hpo]
  by_cases hh : ((s.setPrev onto (some newN)).setNext newN (some onto)).head
      = onto <;> simp [hh] <;> exact ⟨hnext, hprev⟩

/-- Witness for C9 at the state reached by one `push_back(1)` from a fresh
list, with the sentinel (node `0`, null `prev`) as the front node and node `1`
in the `newN` role, applying a `pop_front` as the public operation. -/
theorem claim_C9_prev_write_once_witness :
    ((LinkedList.new (T := Nat)).push_back 1).getNode 0 =
        some ⟨none, some 1, none, 0, 0⟩
    ∧ ((⟨none, some 1, none, 0, 0⟩ : Node Nat).prev = none
    ∧ ((LinkedList.new (T := Nat)).push_back 1).getNode 1 =
        some ⟨some 1, none, some 0, 0, 0⟩
    ∧ (0 : Nat) ≠ 1
    ∧ ((∀ i p, ((LinkedList.new (T := Nat)).push_back 1).prevOf i = some p →
          (applyOp ((LinkedList.new (T := Nat)).push_back 1) Op.pop_front).prevOf i
            = some p)
      ∧ (∀ i q, ((LinkedList.new (T := Nat)).push_back 1).nextOf i = some q →
          (applyOp ((LinkedList.new (T := Nat)).push_back 1) Op.pop_front).nextOf i
            = some q)
      ∧ (((LinkedList.new (T := Nat)).push_back 1).push_front_internal 0 1).2 = true
      ∧ ((((LinkedList.new (T := Nat)).push_back 1).push_front_internal 0 1).1).nextOf 1
          = some 0
      ∧ ((((LinkedList.new (T := Nat)).push_back 1).push_front_internal 0 1).1).prevOf 0
          = some 1)) :=
  ⟨by decide, by decide, by decide, by decide,
    claim_C9_prev_write_once ((LinkedList.new (T := Nat)).push_back 1) Op.pop_front
      0 1 ⟨none, some 1, none, 0, 0⟩ ⟨some 1, none, some 0, 0, 0⟩
      (by decide) (by decide) (by decide) (by decide)⟩

theorem backAux_length (j : Nat) : ∀ (vs : List T) (p : Nat),
    (backAux j p vs).length = vs.length := by
  intro vs
  induction vs with
  | nil => intro p; rfl
  | cons v rest ih => intro p; simpa [backAux] using ih (p + 1)

/-- Pointwise description of `backAux`. -/
theorem backAux_getElem (j : Nat) : ∀ (vs : List T) (p k : Nat),
    (backAux j p vs)[k]? = (vs[k]?).map (fun v =>
      ⟨some v, (if k + 1 = vs.length then none else some (p + k + 2)), some (p + k),
       (if p + k + 1 ≤ j then 1 else 0), (if p + k + 1 ≤ j then 1 else 0)⟩) := by
  intro vs
  induction vs with
  | nil => intro p k; simp [backAux]
  | cons v rest ih =>
    intro p k
    cases k with
    | zero =>
      cases rest with
      | nil => simp [backAux]
      | cons w ws => simp [backAux]
    | succ k' =>
      have harith1 : p + 1 + k' = p + (k' + 1) := by omega
      have hcond : (k' + 1 + 1 = rest.length + 1) = (k' + 1 = rest.length) :=
        propext (by constructor <;> omega)
      simp only [backAux, List.getElem?_cons_succ, ih (p + 1) k', List.length_cons]
      rw [harith1]
      simp only [hcond]

/-- Pointwise description of the canonical state's heap. -/
theorem backState_getNode (vs : List T) (j k : Nat) :
    (backState vs j).getNode k =
      if k = 0 then
        some ⟨none, (if vs.length = 0 then none else some 1), none, 0, 0⟩
      else (vs[k - 1]?).map (fun v =>
        ⟨some v, (if k = vs.length then none else some (k + 1)), some (k - 1),
         (if k ≤ j then 1 else 0), (if k ≤ j then 1 else 0)⟩) := by
  cases k with
  | zero => simp [LinkedList.getNode, backState]
  | succ k' =>
    have h := backAux_getElem j vs 0 k'
    simp only [LinkedList.getNode, backState, List.getElem?_cons_succ, h,
      Nat.zero_add, Nat.succ_sub_one]
    simp

theorem LinkedList.nextOf_eq_getNode (s : LinkedList T) (i : Nat) :
    s.nextOf i = (s.getNode i).bind Node.next := rfl

theorem LinkedList.innerOf_eq_getNode (s : LinkedList T) (i : Nat) :
    s.innerOf i = (s.getNode i).bind Node.inner := rfl

theorem backState_nodes_length (vs : List T) (j : Nat) :
    (backState vs j).nodes.length = vs.length + 1 := by
  simp [backState, backAux_length]

theorem usize_mod_add_one (x : Nat) :
    (x % usizeSize + 1) % usizeSize = (x + 1) % usizeSize := by
  conv_rhs => rw [Nat.add_mod]
  norm_num [usizeSize]

theorem LinkedList.ext_fields (a b : LinkedList T) (h1 : a.nodes = b.nodes)
    (h2 : a.head = b.head) (h3 : a.tail = b.tail) (h4 : a.len = b.len) : a = b := by
  cases a; cases b; simp_all

theorem push_back_backState (vs : List T) (j : Nat) (v : T) (hj : j ≤ vs.length) :
    (backState vs j).push_back v = backState (vs ++ [v]) j := by
  have hlen := backState_nodes_length vs j
  rw [LinkedList.push_back_eq, hlen]
  have hgetA : ∀ k, k < vs.length + 1 →
      ((backState vs j).nodes ++ [(⟨some v, none, none, 0, 0⟩ : Node T)])[k]? =
        (backState vs j).nodes[k]? := by
    intro k hk
    rw [List.getElem?_append, hlen]
    simp [hk]
  set sA : LinkedList T :=
    { backState vs j with
      nodes := (backState vs j).nodes ++ [⟨some v, none, none, 0, 0⟩] } with hsA
  have hnextA : sA.nextOf (vs.length) = none := by
    rw [LinkedList.nextOf_eq_getNode]
    show ((sA.nodes)[vs.length]?).bind Node.next = none
    rw [show sA.nodes = (backState vs j).nodes ++ [⟨some v, none, none, 0, 0⟩] from rfl]
    rw [hgetA (vs.length) (by omega)]
    have hb := backState_getNode vs j (vs.length)
    rw [LinkedList.getNode] at hb
    rw [hb]
    by_cases h0 : vs.length = 0
    · simp [h0]
    · simp only [if_neg h0]
      cases hv : vs[vs.length - 1]? <;> simp
  have hint : sA.push_back_internal sA.tail (vs.length + 1) =
      ({ (sA.setNext (vs.length) (some (vs.length + 1))).setPrev (vs.length + 1)
          (some (vs.length)) with tail := vs.length + 1 }, true) := by
    have htail : sA.tail = vs.length := rfl
    rw [htail]
    unfold LinkedList.push_back_internal
    rw [hnextA]
    have ht2 : ((sA.setNext (vs.length) (some (vs.length + 1))).setPrev (vs.length + 1)
        (some (vs.length))).tail = vs.length := rfl
    simp only [ht2]
    simp
  have hloop : sA.push_back_loop (vs.length + 1) (vs.length + 1 + 1) =
      ({ (sA.setNext (vs.length) (some (vs.length + 1))).setPrev (vs.length + 1)
          (some (vs.length)) with tail := vs.length + 1 }, true) := by
    unfold LinkedList.push_back_loop
    rw [hint]
  rw [hloop]
  apply LinkedList.ext_fields
  · -- nodes
    apply List.ext_getElem?
    intro k
    show (modNode (fun n => { n with prev := some (vs.length) })
        (modNode (fun n => { n with next := some (vs.length + 1) }) sA.nodes (vs.length))
        (vs.length + 1))[k]? = (backState (vs ++ [v]) j).nodes[k]?
    have hR := backState_getNode (vs ++ [v]) j k
    rw [LinkedList.getNode] at hR
    rw [hR]
    by_cases hk1 : k = vs.length + 1
    · subst hk1
      rw [modNode_getElem_self]
      rw [modNode_getElem_ne _ _ _ _ (by omega : vs.length + 1 ≠ vs.length)]
      have hfresh : sA.nodes[vs.length + 1]? = some ⟨some v, none, none, 0, 0⟩ := by
        show ((backState vs j).nodes ++ [_])[vs.length + 1]? = _
        rw [← hlen]
        exact List.getElem?_concat_length _ _
      rw [hfresh]
      have hvv : (vs ++ [v])[vs.length + 1 - 1]? = some v := by
        simp [List.getElem?_concat_length]
      rw [if_neg (by omega : ¬ (vs.length + 1 = 0)), hvv]
      simp [List.length_append, show ¬ (vs.length + 1 ≤ j) from by omega]
    · by_cases hk2 : k = vs.length
      · subst hk2
        rw [modNode_getElem_ne _ _ _ _ hk1]
        rw [modNode_getElem_self]
        rw [show sA.nodes = (backState vs j).nodes ++ [⟨some v, none, none, 0, 0⟩]
          from rfl]
        rw [hgetA (vs.length) (by omega)]
        have hb := backState_getNode vs j (vs.length)
        rw [LinkedList.getNode] at hb
        rw [hb]
        by_cases h0 : vs.length = 0
        · simp [h0]
        · rw [if_neg h0, if_neg h0]
          have hvk : (vs ++ [v])[vs.length - 1]? = vs[vs.length - 1]? := by
            rw [List.getElem?_append]
            simp [show vs.length - 1 < vs.length from by omega]
          rw [hvk]
          cases hv : vs[vs.length - 1]? with
          | none => simp
          | some w =>
            simp [List.length_append, show ¬ (vs.length = vs.length + 1) from by omega]
      · by_cases hk3 : k < vs.length
        · rw [modNode_getElem_ne _ _ _ _ hk1]
          rw [modNode_getElem_ne _ _ _ _ hk2]
          rw [show sA.nodes = (backState vs j).nodes ++ [⟨some v, none, none, 0, 0⟩]
            from rfl]
          rw [hgetA k (by omega)]
          have hb := backState_getNode vs j k
          rw [LinkedList.getNode] at hb
          rw [hb]
          by_cases h0 : k = 0
          · subst h0
            simp [show vs.length ≠ 0 from by omega, List.length_append,
              show vs.length + 1 ≠ 0 from by omega]
          · rw [if_neg h0, if_neg h0]
            have hvk : (vs ++ [v])[k - 1]? = vs[k - 1]? := by
              rw [List.getElem?_append]
              simp [show k - 1 < vs.length from by omega]
            rw [hvk]
            cases hv : vs[k - 1]? with
            | none => simp
            | some w =>
              simp [List.length_append, show k ≠ vs.length from hk2,
                show ¬ (k = vs.length + 1) from hk1]
        · -- k exceeds every allocated index
          have hk4 : vs.length + 2 ≤ k := by omega
          rw [modNode_getElem_ne _ _ _ _ hk1]
          rw [modNode_getElem_ne _ _ _ _ hk2]
          have hnone : sA.nodes[k]? = none := by
            apply List.getElem?_eq_none
            show ((backState vs j).nodes ++ [_]).length ≤ k
            rw [List.length_append, hlen]
            simp only [List.length_cons, List.length_nil]
            omega
          rw [hnone]
          rw [if_neg (by omega : ¬ (k = 0))]
          have hvnone : (vs ++ [v])[k - 1]? = none := by
            apply List.getElem?_eq_none
            rw [List.length_append]
            simp only [List.length_cons, List.length_nil]
            omega
          rw [hvnone]
          rfl
  · rfl
  · simp [backState]
  · -- len
    show ((vs.length - j) % usizeSize + 1) % usizeSize =
      ((vs ++ [v]).length - j) % usizeSize
    rw [usize_mod_add_one]
    have : vs.length - j + 1 = (vs ++ [v]).length - j := by
      simp only [List.length_append, List.length_cons, List.length_nil]
      omega
    rw [this]

theorem usize_mod_sub_one (x : Nat) (hx : 1 ≤ x) :
    (x % usizeSize + (usizeSize - 1)) % usizeSize = (x - 1) % usizeSize := by
  have hU : 1 ≤ usizeSize := by norm_num [usizeSize]
  have h1 : (x % usizeSize + (usizeSize - 1)) % usizeSize
      = (x + (usizeSize - 1)) % usizeSize := by
    conv_rhs => rw [Nat.add_mod]
    rw [Nat.mod_eq_of_lt (show usizeSize - 1 < usizeSize from by omega)]
  rw [h1, show x + (usizeSize - 1) = (x - 1) + usizeSize from by omega,
    Nat.add_mod_right]

/-- Popping the canonical push-back state with `j < vs.length` pops the
`(j+1)`-st node, returning the `(j+1)`-st pushed value. -/
theorem pop_front_backState (vs : List T) (j : Nat) (hj : j < vs.length) :
    (backState vs j).pop_front = (backState vs (j + 1), some (vs[j]?)) := by
  have hnext : (backState vs j).nextOf ((backState vs j).head) = some (j + 1) := by
    rw [LinkedList.nextOf_eq_getNode]
    rw [show (backState vs j).head = j from rfl]
    rw [backState_getNode]
    by_cases h0 : j = 0
    · subst h0; simp [show vs.length ≠ 0 from by omega]
    · rw [if_neg h0]
      have hv : vs[j - 1]? = some (vs.get ⟨j - 1, by omega⟩) := by
        rw [List.getElem?_eq_getElem (by omega)]
        rfl
      rw [hv]
      simp [show j ≠ vs.length from by omega]
  rw [LinkedList.pop_front_eq, hnext]
  rw [Prod.mk.injEq]
  constructor
  · apply LinkedList.ext_fields
    · apply List.ext_getElem?
      intro k
      show (modNode bumpRetire (backState vs j).nodes (j + 1))[k]? =
        (backState vs (j + 1)).nodes[k]?
      have hR := backState_getNode vs (j + 1) k
      rw [LinkedList.getNode] at hR
      rw [hR]
      by_cases hk : k = j + 1
      · subst hk
        rw [modNode_getElem_self]
        have hb := backState_getNode vs j (j + 1)
        rw [LinkedList.getNode] at hb
        rw [hb]
        rw [if_neg (by omega : ¬ (j + 1 = 0)), if_neg (by omega : ¬ (j + 1 = 0))]
        cases hv : vs[j + 1 - 1]? with
        | none => simp
        | some w => simp [bumpRetire, show ¬ (j + 1 ≤ j) from by omega]
      · rw [modNode_getElem_ne _ _ _ _ hk]
        have hb := backState_getNode vs j k
        rw [LinkedList.getNode] at hb
        rw [hb]
        by_cases h0 : k = 0
        · subst h0; simp
        · rw [if_neg h0, if_neg h0]
          have hc : (k ≤ j) = (k ≤ j + 1) := propext (by constructor <;> omega)
          simp only [hc]
    · rfl
    · show (if (backState vs j).tail = (backState vs j).head then j + 1
        else (backState vs j).tail) = (backState vs (j + 1)).tail
      rw [if_neg (show (backState vs j).tail ≠ (backState vs j).head from by
        show vs.length ≠ j
        omega)]
      rfl
    · show ((vs.length - j) % usizeSize + (usizeSize - 1)) % usizeSize
        = (vs.length - (j + 1)) % usizeSize
      rw [usize_mod_sub_one (vs.length - j) (by omega), Nat.sub_sub]
  · show some ((backState vs j).innerOf (j + 1)) = some (vs[j]?)
    rw [LinkedList.innerOf_eq_getNode]
    have hb := backState_getNode vs j (j + 1)
    rw [hb]
    rw [if_neg (by omega : ¬ (j + 1 = 0))]
    cases hv : vs[j + 1 - 1]? with
    | none => simp at hv ⊢; omega
    | some w =>
      have : vs[j]? = some w := by
        rw [show j = j + 1 - 1 from rfl]
        exact hv
      rw [this]
      simp

/-- Popping the canonical state after all values have been popped reports
emptiness and leaves the state unchanged. -/
theorem pop_front_backState_end (vs : List T) :
    (backState vs (vs.length)).pop_front = (backState vs (vs.length), none) := by
  have hnext : (backState vs (vs.length)).nextOf
      ((backState vs (vs.length)).head) = none := by
    rw [LinkedList.nextOf_eq_getNode]
    rw [show (backState vs (vs.length)).head = vs.length from rfl]
    rw [backState_getNode]
    by_cases h0 : vs.length = 0
    · simp [h0]
    · rw [if_neg h0]
      cases hv : vs[vs.length - 1]? <;> simp
  rw [LinkedList.pop_front_eq, hnext]

theorem pushAll_cons (s : LinkedList T) (v : T) (rest : List T) :
    pushAll s (v :: rest) = pushAll (s.push_back v) rest := rfl

theorem popN_zero (s : LinkedList T) : popN s 0 = (s, []) := rfl

theorem popN_succ (s : LinkedList T) (n : Nat) :
    popN s (n + 1) =
      ((popN ((s.pop_front).1) n).1, (s.pop_front).2 :: (popN ((s.pop_front).1) n).2) :=
  rfl

theorem backState_nil : (backState ([] : List T) 0) = LinkedList.new := by
  simp [backState, backAux, LinkedList.new, usizeSize]

/-- Pushing values one by one at the back extends the canonical state. -/
theorem pushAll_backState : ∀ (vs ws : List T) (j : Nat), j ≤ ws.length →
    pushAll (backState ws j) vs = backState (ws ++ vs) j := by
  intro vs
  induction vs with
  | nil => intro ws j hj; simp [pushAll]
  | cons v rest ih =>
    intro ws j hj
    rw [pushAll_cons, push_back_backState ws j v hj,
      ih (ws ++ [v]) j (by simp; omega)]
    simp

/-- Draining the remaining `vs.length - j` values of the canonical state
returns them in push order. -/
theorem popN_backState : ∀ (k j : Nat) (vs : List T), j + k = vs.length →
    popN (backState vs j) k =
      (backState vs vs.length, (vs.drop j).map (fun v => some (some v))) := by
  intro k
  induction k with
  | zero =>
    intro j vs h
    rw [popN_zero, show j = vs.length from by omega]
    simp [List.drop_length]
  | succ k' ih =>
    intro j vs h
    have hj : j < vs.length := by omega
    rw [popN_succ, pop_front_backState vs j hj]
    simp only []
    rw [ih (j + 1) vs (by omega)]
    have hdrop : vs.drop j = vs[j] :: vs.drop (j + 1) := List.drop_eq_getElem_cons hj
    rw [hdrop]
    simp only [List.map_cons]
    rw [List.getElem?_eq_getElem hj]

/-- C4: FIFO behaviour of `push_back`/`pop_front` from a fresh list. For every
value list `vs`, pushing them with `push_back` and then popping `vs.length`
times returns exactly the pushed values in push order. In the concrete
scenario `push_back(1); push_back(2); push_back(3)`, `len()` is `3`, the four
following `pop_front()` calls return `Some(1)`, `Some(2)`, `Some(3)`, `None`,
and `len()` is then `0`. -/
theorem claim_C4_fifo (vs : List T) :
    (popN (pushAll (LinkedList.new) vs) vs.length).2 =
      vs.map (fun v => some (some v))
    ∧ ((runOps (LinkedList.new)
        [Op.push_back 1, Op.push_back 2, Op.push_back 3]).1).len = 3
    ∧ (runOps (LinkedList.new) [Op.push_back 1, Op.push_back 2, Op.push_back 3,
        Op.pop_front, Op.pop_front, Op.pop_front, Op.pop_front]).2 =
      [some (some 1), some (some 2), some (some 3), none]
    ∧ ((runOps (LinkedList.new) [Op.push_back 1, Op.push_back 2, Op.push_back 3,
        Op.pop_front, Op.pop_front, Op.pop_front, Op.pop_front]).1).len = 0 := by
  refine ⟨?_, by decide, by decide, by decide⟩
  have h1 : pushAll (LinkedList.new) vs = backState vs 0 := by
    rw [← backState_nil, pushAll_backState vs [] 0 (by simp)]
    simp
  rw [h1, popN_backState vs.length 0 vs (by omega)]
  simp

theorem NextLinked_congr {s s' : LinkedList T}
    (h : ∀ i, s'.nextOf i = s.nextOf i) :
    ∀ cs, NextLinked s cs → NextLinked s' cs := by
  intro cs
  induction cs with
  | nil => intro _; trivial
  | cons a r ih =>
    cases r with
    | nil => intro hx; simp only [NextLinked] at hx ⊢; rw [h]; exact hx
    | cons b r' =>
      intro hx
      simp only [NextLinked] at hx ⊢
      exact ⟨by rw [h]; exact hx.1, ih hx.2⟩

theorem PrevLinked_congr {s s' : LinkedList T}
    (h : ∀ i, s'.prevOf i = s.prevOf i) :
    ∀ cs p, PrevLinked s p cs → PrevLinked s' p cs := by
  intro cs
  induction cs with
  | nil => intro p _; trivial
  | cons b r ih =>
    intro p hx
    simp only [PrevLinked] at hx ⊢
    exact ⟨by rw [h]; exact hx.1, ih (some b) hx.2⟩

theorem NextLinked_tail {s : LinkedList T} {a : Nat} {r : List Nat}
    (h : NextLinked s (a :: r)) : NextLinked s r := by
  cases r with
  | nil => trivial
  | cons b r' => exact h.2

theorem NextLinked_drop {s : LinkedList T} :
    ∀ (k : Nat) (cs : List Nat), NextLinked s cs → NextLinked s (cs.drop k) := by
  intro k
  induction k with
  | zero => intro cs h; simpa using h
  | succ k' ih =>
    intro cs h
    cases cs with
    | nil => trivial
    | cons a r =>
      simp only [List.drop_succ_cons]
      exact ih r (NextLinked_tail h)

/-- Along a chain, the successor of the node at position `i` is the node at
position `i + 1`. -/
theorem NextLinked_next_at {s : LinkedList T} :
    ∀ (cs : List Nat) (i a b : Nat), NextLinked s cs →
      cs[i]? = some a → cs[i + 1]? = some b → s.nextOf a = some b := by
  intro cs
  induction cs with
  | nil => intro i a b _ ha _; simp at ha
  | cons a0 r ih =>
    intro i a b hnl ha hb
    cases i with
    | zero =>
      simp only [List.getElem?_cons_zero, Option.some_inj] at ha
      subst ha
      cases r with
      | nil => simp at hb
      | cons c r' =>
        simp only [List.getElem?_cons_succ, List.getElem?_cons_zero,
          Option.some_inj] at hb
        subst hb
        exact hnl.1
    | succ i' =>
      simp only [List.getElem?_cons_succ] at ha hb
      exact ih i' a b (NextLinked_tail hnl) ha hb

/-- The last node of a non-empty chain has a null `next`. -/
theorem NextLinked_last {s : LinkedList T} :
    ∀ (cs : List Nat) (a : Nat), NextLinked s cs →
      cs[cs.length - 1]? = some a → s.nextOf a = none := by
  intro cs
  induction cs with
  | nil => intro a _ ha; simp at ha
  | cons a0 r ih =>
    intro a hnl ha
    cases r with
    | nil =>
      simp at ha
      subst ha
      exact hnl
    | cons b r' =>
      have hlen : (a0 :: b :: r').length - 1 = ((b :: r').length - 1) + 1 := by
        simp
      rw [hlen, List.getElem?_cons_succ] at ha
      exact ih a (NextLinked_tail hnl) ha

/-- Along a back-linked chain, the node at position `i + 1` points back to the
node at position `i`. -/
theorem PrevLinked_prev_at {s : LinkedList T} :
    ∀ (cs : List Nat) (p : Option Nat) (i x : Nat), PrevLinked s p cs →
      cs[i + 1]? = some x → ∃ y, cs[i]? = some y ∧ s.prevOf x = some y := by
  intro cs
  induction cs with
  | nil => intro p i x _ hx; simp at hx
  | cons b r ih =>
    intro p i x hp hx
    cases i with
    | zero =>
      cases r with
      | nil => simp at hx
      | cons c r' =>
        simp only [List.getElem?_cons_succ, List.getElem?_cons_zero,
          Option.some_inj] at hx
        subst hx
        exact ⟨b, rfl, hp.2.1⟩
    | succ i' =>
      simp only [List.getElem?_cons_succ] at hx ⊢
      exact ih (some b) i' x hp.2 hx

/-- The front node of a back-linked chain has the accumulator as its `prev`. -/
theorem PrevLinked_zero {s : LinkedList T} {p : Option Nat} {cs : List Nat}
    {x : Nat} (hp : PrevLinked s p cs) (hx : cs[0]? = some x) :
    s.prevOf x = p := by
  cases cs with
  | nil => simp at hx
  | cons b r =>
    simp only [List.getElem?_cons_zero, Option.some_inj] at hx
    subst hx
    exact hp.1

/-- Following `next` from position `i` for `k` steps along a chain lands at
position `i + k`. -/
theorem NextLinked_nextIter {s : LinkedList T} :
    ∀ (k : Nat) (cs : List Nat) (i a b : Nat), NextLinked s cs →
      cs[i]? = some a → cs[i + k]? = some b → nextIter s a k = some b := by
  intro k
  induction k with
  | zero =>
    intro cs i a b _ ha hb
    rw [Nat.add_zero] at hb
    rw [ha] at hb
    simp only [Option.some_inj] at hb
    subst hb
    rfl
  | succ k' ih =>
    intro cs i a b hnl ha hb
    have hib : i + (k' + 1) < cs.length := by
      rcases List.getElem?_eq_some.mp hb with ⟨h, _⟩
      exact h
    have hi1 : i + 1 < cs.length := by omega
    have hc : cs[i + 1]? = some cs[i + 1] := List.getElem?_eq_getElem hi1
    have hnx : s.nextOf a = some cs[i + 1] := NextLinked_next_at cs i a _ hnl ha hc
    show (match s.nextOf a with
      | none => none
      | some j => nextIter s j k') = some b
    rw [hnx]
    exact ih cs (i + 1) (cs[i + 1]) b hnl hc
      (by rw [show i + 1 + k' = i + (k' + 1) from by omega]; exact hb)

/-- Single-threaded run of the `push_back` retry loop: starting with `tail` on
a chain whose remaining segment is `a :: d` and ends in `e`, the loop helps
`tail` forward across the segment and links the new node after `e`. -/
theorem push_back_loop_runs (newN : Nat) :
    ∀ (d : List Nat) (s : LinkedList T) (a e fuel : Nat),
      NextLinked s (a :: d) → s.tail = a → d.length + 1 ≤ fuel →
      (a :: d).getLast? = some e →
      s.push_back_loop newN fuel =
        ({ nodes := modNode (fun n => { n with prev := some e })
            (modNode (fun n => { n with next := some newN }) s.nodes e) newN,
           head := s.head, tail := newN, len := s.len }, true) := by
  intro d
  induction d with
  | nil =>
    intro s a e fuel hnl htail hfuel hlast
    have hea : e = a := by simpa using hlast.symm
    subst hea
    cases fuel with
    | zero => exact absurd hfuel (by simp)
    | succ f =>
      have hnone : s.nextOf e = none := hnl
      have hint : s.push_back_internal e newN =
          ({ nodes := modNode (fun n => { n with prev := some e })
              (modNode (fun n => { n with next := some newN }) s.nodes e) newN,
             head := s.head, tail := newN, len := s.len }, true) := by
        unfold LinkedList.push_back_internal
        rw [hnone]
        have ht2 : ((s.setNext e (some newN)).setPrev newN (some e)).tail = e :=
          htail
        simp only [ht2]
        simp
        exact ⟨rfl, rfl, rfl⟩
      unfold LinkedList.push_back_loop
      rw [htail, hint]
  | cons b d' ih =>
    intro s a e fuel hnl htail hfuel hlast
    cases fuel with
    | zero => exact absurd hfuel (by simp)
    | succ f =>
      have hsome : s.nextOf a = some b := hnl.1
      have hint : s.push_back_internal a newN = ({ s with tail := b }, false) := by
        unfold LinkedList.push_back_internal
        simp only [hsome, if_pos htail]
      have hnlb : NextLinked ({ s with tail := b } : LinkedList T) (b :: d') := by
        refine NextLinked_congr (s := s) ?_ _ hnl.2
        intro i
        rfl
      have hrec := ih ({ s with tail := b }) b e f hnlb rfl
        (by simp only [List.length_cons] at hfuel ⊢; omega)
        (by rw [← hlast, List.getLast?_cons_cons])
      unfold LinkedList.push_back_loop
      rw [htail]
      simp only [hint]
      exact hrec

/-- Single-threaded run of the `push_front` retry loop: starting with `head`
at position `hi` of a back-linked chain whose front is `a0`, the loop helps
`head` backwards to `a0` and links the new node before it. -/
theorem push_front_loop_runs (newN : Nat) :
    ∀ (hi : Nat) (cs : List Nat) (s : LinkedList T) (a0 fuel : Nat),
      PrevLinked s none cs → cs[hi]? = some s.head → cs[0]? = some a0 →
      hi + 1 ≤ fuel →
      s.push_front_loop newN fuel =
        ({ nodes := modNode (fun n => { n with next := some a0 })
            (modNode (fun n => { n with prev := some newN }) s.nodes a0) newN,
           head := newN, tail := s.tail, len := s.len }, true) := by
  intro hi
  induction hi with
  | zero =>
    intro cs s a0 fuel hp hhead hfront hfuel
    have ha : s.head = a0 := by
      rw [hhead] at hfront
      simpa using hfront
    cases fuel with
    | zero => exact absurd hfuel (by simp)
    | succ f =>
      have hnone : s.prevOf a0 = none := PrevLinked_zero hp hfront
      have hint : s.push_front_internal a0 newN =
          ({ nodes := modNode (fun n => { n with next := some a0 })
              (modNode (fun n => { n with prev := some newN }) s.nodes a0) newN,
             head := newN, tail := s.tail, len := s.len }, true) := by
        unfold LinkedList.push_front_internal
        rw [hnone]
        have hh2 : ((s.setPrev a0 (some newN)).setNext newN (some a0)).head = a0 :=
          ha
        simp only [hh2]
        simp
        exact ⟨rfl, rfl, rfl⟩
      unfold LinkedList.push_front_loop
      rw [ha, hint]
  | succ k ih =>
    intro cs s a0 fuel hp hhead hfront hfuel
    cases fuel with
    | zero => exact absurd hfuel (by omega)
    | succ f =>
      rcases PrevLinked_prev_at cs none k s.head hp hhead with ⟨y, hy, hprev⟩
      have hint : s.push_front_internal s.head newN = ({ s with head := y }, false) := by
        unfold LinkedList.push_front_internal
        simp only [hprev, if_pos rfl]
        simp
      have hplb : PrevLinked ({ s with head := y } : LinkedList T) none cs := by
        refine PrevLinked_congr (s := s) ?_ _ none hp
        intro i
        rfl
      have hrec := ih cs ({ s with head := y }) a0 f hplb hy hfront (by omega)
      unfold LinkedList.push_front_loop
      simp only [hint]
      exact hrec

/-- Allocating a fresh node changes no `next` load (the fresh node's own
`next` is null, like every dangling id's). -/
theorem alloc_fresh_nextOf (s : LinkedList T) (inner : Option T) :
    ∀ i, ({ s with nodes := s.nodes ++ [⟨inner, none, none, 0, 0⟩] } :
      LinkedList T).nextOf i = s.nextOf i := by
  intro i
  unfold LinkedList.nextOf
  rcases lt_trichotomy i s.nodes.length with h | h | h
  · simp only []
    rw [List.getElem?_append]
    simp [h]
  · subst h
    rw [show (({ s with nodes := s.nodes ++ [⟨inner, none, none, 0, 0⟩] } :
      LinkedList T)).nodes = s.nodes ++ [⟨inner, none, none, 0, 0⟩] from rfl]
    rw [List.getElem?_concat_length, List.getElem?_eq_none (Nat.le_refl _)]
    rfl
  · rw [List.getElem?_eq_none (by simp; omega), List.getElem?_eq_none (by omega)]

/-- Allocating a fresh node changes no `prev` load. -/
theorem alloc_fresh_prevOf (s : LinkedList T) (inner : Option T) :
    ∀ i, ({ s with nodes := s.nodes ++ [⟨inner, none, none, 0, 0⟩] } :
      LinkedList T).prevOf i = s.prevOf i := by
  intro i
  unfold LinkedList.prevOf
  rcases lt_trichotomy i s.nodes.length with h | h | h
  · simp only []
    rw [List.getElem?_append]
    simp [h]
  · subst h
    rw [show (({ s with nodes := s.nodes ++ [⟨inner, none, none, 0, 0⟩] } :
      LinkedList T)).nodes = s.nodes ++ [⟨inner, none, none, 0, 0⟩] from rfl]
    rw [List.getElem?_concat_length, List.getElem?_eq_none (Nat.le_refl _)]
    rfl
  · rw [List.getElem?_eq_none (by simp; omega), List.getElem?_eq_none (by omega)]

/-- A non-empty suffix has the same last element. -/
theorem getLast?_drop : ∀ (cs : List Nat) (k : Nat), cs.drop k ≠ [] →
    (cs.drop k).getLast? = cs.getLast? := by
  intro cs
  induction cs with
  | nil => intro k h; simp at h
  | cons a r ih =>
    intro k h
    cases k with
    | zero => rfl
    | succ k' =>
      simp only [List.drop_succ_cons] at h ⊢
      cases hr : r with
      | nil => subst hr; simp at h
      | cons b r' =>
        subst hr
        rw [ih k' h, List.getLast?_cons_cons]

/-- A duplicate-free list of naturals below `n` has at most `n` elements. -/
theorem nodup_length_le (cs : List Nat) (n : Nat) (hnd : cs.Nodup)
    (hb : ∀ i ∈ cs, i < n) : cs.length ≤ n := by
  calc cs.length = cs.toFinset.card := (List.toFinset_card_of_nodup hnd).symm
    _ ≤ (Finset.range n).card := by
        apply Finset.card_le_card
        intro x hx
        simp only [List.mem_toFinset] at hx
        simp only [Finset.mem_range]
        exact hb x hx
    _ = n := Finset.card_range n

/-- Full single-threaded run of `push_back` on a state satisfying the chain
invariant: the loop terminates and links the new node after the chain's last
node `e`. -/
theorem push_back_runs (s : LinkedList T) (v : T) (cs : List Nat) (e : Nat)
    (hc : ChainOf s cs) (hlast : cs.getLast? = some e) :
    s.push_back v =
      { nodes := modNode (fun n => { n with prev := some e })
          (modNode (fun n => { n with next := some (s.nodes.length) })
            (s.nodes ++ [⟨some v, none, none, 0, 0⟩]) e) (s.nodes.length),
        head := s.head, tail := s.nodes.length, len := (s.len + 1) % usizeSize } := by
  obtain ⟨hnd, hmem, hnl, hpl, hi, hj, hij, hhead, htail⟩ := hc
  rw [LinkedList.push_back_eq]
  have hjlt : hj < cs.length := (List.getElem?_eq_some.mp htail).1
  have hdrop : cs.drop hj = s.tail :: cs.drop (hj + 1) := by
    rw [List.drop_eq_getElem_cons hjlt]
    have h1 := List.getElem?_eq_getElem hjlt
    rw [htail] at h1
    have : s.tail = cs[hj] := by simpa using h1
    rw [this]
  have hnlA : NextLinked
      ({ s with nodes := s.nodes ++ [⟨some v, none, none, 0, 0⟩] } : LinkedList T)
      (s.tail :: cs.drop (hj + 1)) := by
    rw [← hdrop]
    exact NextLinked_congr (alloc_fresh_nextOf s (some v)) _
      (NextLinked_drop hj cs hnl)
  have hlast2 : (s.tail :: cs.drop (hj + 1)).getLast? = some e := by
    rw [← hdrop, getLast?_drop cs hj (by rw [hdrop]; simp), hlast]
  have hfuel : (cs.drop (hj + 1)).length + 1 ≤ s.nodes.length + 1 := by
    have hle : cs.length ≤ s.nodes.length :=
      nodup_length_le cs s.nodes.length hnd (fun i hx => (hmem i).mp hx)
    simp only [List.length_drop]
    omega
  have hrun := push_back_loop_runs (s.nodes.length) (cs.drop (hj + 1))
    ({ s with nodes := s.nodes ++ [⟨some v, none, none, 0, 0⟩] } : LinkedList T)
    s.tail e (s.nodes.length + 1) hnlA rfl hfuel hlast2
  rw [hrun]

/-- Full single-threaded run of `push_front` on a state satisfying the chain
invariant: the loop terminates and links the new node before the chain's
front node `a0`. -/
theorem push_front_runs (s : LinkedList T) (v : T) (cs : List Nat) (a0 : Nat)
    (hc : ChainOf s cs) (hfront : cs[0]? = some a0) :
    s.push_front v =
      { nodes := modNode (fun n => { n with next := some a0 })
          (modNode (fun n => { n with prev := some (s.nodes.length) })
            (s.nodes ++ [⟨some v, none, none, 0, 0⟩]) a0) (s.nodes.length),
        head := s.nodes.length, tail := s.tail, len := (s.len + 1) % usizeSize } := by
  obtain ⟨hnd, hmem, hnl, hpl, hi, hj, hij, hhead, htail⟩ := hc
  rw [LinkedList.push_front_eq]
  have hplA : PrevLinked
      ({ s with nodes := s.nodes ++ [⟨some v, none, none, 0, 0⟩] } : LinkedList T)
      none cs :=
    PrevLinked_congr (alloc_fresh_prevOf s (some v)) cs none hpl
  have hilt : hi < cs.length := (List.getElem?_eq_some.mp hhead).1
  have hfuel : hi + 1 ≤ s.nodes.length + 1 := by
    have hle : cs.length ≤ s.nodes.length :=
      nodup_length_le cs s.nodes.length hnd (fun i hx => (hmem i).mp hx)
    omega
  have hrun := push_front_loop_runs (s.nodes.length) hi cs
    ({ s with nodes := s.nodes ++ [⟨some v, none, none, 0, 0⟩] } : LinkedList T)
    a0 (s.nodes.length + 1) hplA hhead hfront hfuel
  rw [hrun]

theorem modNode_length (f : Node T → Node T) :
    ∀ (ns : List (Node T)) (i : Nat), (modNode f ns i).length = ns.length := by
  intro ns
  induction ns with
  | nil => intro i; rfl
  | cons n rest ih =>
    intro i
    cases i with
    | zero => rfl
    | succ j => simpa [modNode] using ih j

theorem NextLinked_congr_mem {s s' : LinkedList T} :
    ∀ cs, (∀ x ∈ cs, s'.nextOf x = s.nextOf x) → NextLinked s cs →
      NextLinked s' cs := by
  intro cs
  induction cs with
  | nil => intro _ _; trivial
  | cons a r ih =>
    cases r with
    | nil =>
      intro h hx
      simp only [NextLinked] at hx ⊢
      rw [h a (by simp)]
      exact hx
    | cons b r' =>
      intro h hx
      refine ⟨?_, ih (fun x hm => h x (by simp [hm])) hx.2⟩
      rw [h a (by simp)]
      exact hx.1

theorem PrevLinked_congr_mem {s s' : LinkedList T} :
    ∀ cs p, (∀ x ∈ cs, s'.prevOf x = s.prevOf x) → PrevLinked s p cs →
      PrevLinked s' p cs := by
  intro cs
  induction cs with
  | nil => intro p _ _; trivial
  | cons b r ih =>
    intro p h hx
    refine ⟨?_, ih (some b) (fun x hm => h x (by simp [hm])) hx.2⟩
    rw [h b (by simp)]
    exact hx.1

/-- Extending a duplicate-free forward chain by one node at the end. -/
theorem NextLinked_snoc {s s' : LinkedList T} :
    ∀ (cs : List Nat) (e m : Nat), cs.Nodup → NextLinked s cs →
      cs.getLast? = some e →
      (∀ x ∈ cs, x ≠ e → s'.nextOf x = s.nextOf x) →
      s'.nextOf e = some m → s'.nextOf m = none →
      NextLinked s' (cs ++ [m]) := by
  intro cs
  induction cs with
  | nil => intro e m _ _ hlast _ _ _; simp at hlast
  | cons a r ih =>
    intro e m hnd hnl hlast hkeep he hm
    cases r with
    | nil =>
      have hae : a = e := by simpa using hlast
      subst hae
      exact ⟨he, hm⟩
    | cons b r' =>
      rw [List.getLast?_cons_cons] at hlast
      have hmem_e : e ∈ b :: r' := List.mem_of_mem_getLast? hlast
      have hane : a ≠ e := by
        intro hcontra
        subst hcontra
        exact (List.nodup_cons.mp hnd).1 hmem_e
      refine ⟨?_, ih e m (List.nodup_cons.mp hnd).2 hnl.2 hlast
        (fun x hx hxe => hkeep x (by simp [hx]) hxe) he hm⟩
      show s'.nextOf a = some b
      rw [hkeep a (by simp) hane]
      exact hnl.1

/-- Extending a back-linked chain by one node at the end. -/
theorem PrevLinked_snoc {s s' : LinkedList T} :
    ∀ (cs : List Nat) (p : Option Nat) (e m : Nat), PrevLinked s p cs →
      cs.getLast? = some e →
      (∀ x ∈ cs, s'.prevOf x = s.prevOf x) →
      s'.prevOf m = some e →
      PrevLinked s' p (cs ++ [m]) := by
  intro cs
  induction cs with
  | nil => intro p e m _ hlast _ _; simp at hlast
  | cons b r ih =>
    intro p e m hp hlast hkeep hm
    cases r with
    | nil =>
      have hbe : b = e := by simpa using hlast
      subst hbe
      refine ⟨by rw [hkeep b (by simp)]; exact hp.1, hm, trivial⟩
    | cons c r' =>
      rw [List.getLast?_cons_cons] at hlast
      refine ⟨by rw [hkeep b (by simp)]; exact hp.1,
        ih (some b) e m hp.2 hlast (fun x hx => hkeep x (by simp [hx])) hm⟩

/-- Along a chain, a node with a non-null `next` is not last, and its `next`
is the node at the following position. -/
theorem NextLinked_position_succ {s : LinkedList T} (cs : List Nat) (i a b : Nat)
    (hnl : NextLinked s cs) (ha : cs[i]? = some a) (hb : s.nextOf a = some b) :
    cs[i + 1]? = some b := by
  have hilt : i < cs.length := (List.getElem?_eq_some.mp ha).1
  by_cases hlt : i + 1 < cs.length
  · have hc : cs[i + 1]? = some cs[i + 1] := List.getElem?_eq_getElem hlt
    have := NextLinked_next_at cs i a (cs[i + 1]) hnl ha hc
    rw [hb] at this
    rw [hc, ← Option.some_inj.mp this]
  · have hieq : i = cs.length - 1 := by omega
    have := NextLinked_last cs a hnl (by rw [← hieq]; exact ha)
    rw [this] at hb
    exact absurd hb (by simp)

/-- The fresh list's chain is the lone sentinel. -/
theorem chain_new : ChainOf (LinkedList.new (T := T)) [0] := by
  refine ⟨by simp, ?_, rfl, ⟨rfl, trivial⟩, 0, 0, Nat.le_refl 0, rfl, rfl⟩
  intro i
  constructor
  · intro h
    simp only [List.mem_singleton] at h
    subst h
    show 0 < 1
    omega
  · intro h
    have : i = 0 := by
      have : (LinkedList.new (T := T)).nodes.length = 1 := rfl
      omega
    simp [this]

/-- `push_back` extends the chain by the new node at the back. -/
theorem chain_push_back (s : LinkedList T) (v : T) (cs : List Nat)
    (hc : ChainOf s cs) : ChainOf (s.push_back v) (cs ++ [s.nodes.length]) := by
  have hc' := hc
  obtain ⟨hnd, hmem, hnl, hpl, hi, hj, hij, hhead, htail⟩ := hc'
  have hilt : hi < cs.length := (List.getElem?_eq_some.mp hhead).1
  have hcs_ne : cs ≠ [] := by
    intro h
    rw [h] at hilt
    simp at hilt
  obtain ⟨e, he⟩ : ∃ e, cs.getLast? = some e := by
    cases hgl : cs.getLast? with
    | none =>
      have hx := List.getLast?_eq_getLast cs hcs_ne
      rw [hgl] at hx
      exact absurd hx (by simp)
    | some e => exact ⟨e, rfl⟩
  have hee : e ∈ cs := List.mem_of_mem_getLast? he
  have helt : e < s.nodes.length := (hmem e).mp hee
  rw [push_back_runs s v cs e hc he]
  have hBnodes :
      (modNode (fun n => { n with prev := some e })
        (modNode (fun n => { n with next := some (s.nodes.length) })
          (s.nodes ++ [⟨some v, none, none, 0, 0⟩]) e) (s.nodes.length)) =
      ((({ s with nodes := s.nodes ++ [⟨some v, none, none, 0, 0⟩] } :
          LinkedList T).setNext e (some (s.nodes.length))).setPrev
        (s.nodes.length) (some e)).nodes := rfl
  set sA : LinkedList T :=
    { s with nodes := s.nodes ++ [⟨some v, none, none, 0, 0⟩] } with hsA
  set sB : LinkedList T :=
    (sA.setNext e (some (s.nodes.length))).setPrev (s.nodes.length) (some e)
    with hsB
  have hgetAe : sA.getNode e = some (s.nodes[e]) := by
    show (s.nodes ++ [⟨some v, none, none, 0, 0⟩])[e]? = _
    rw [List.getElem?_append]
    simp [helt, List.getElem?_eq_getElem helt]
  have hgetAnew : sA.getNode (s.nodes.length) = some ⟨some v, none, none, 0, 0⟩ := by
    show (s.nodes ++ [⟨some v, none, none, 0, 0⟩])[s.nodes.length]? = _
    exact List.getElem?_concat_length _ _
  have hBnext_other : ∀ x, x ≠ e → sB.nextOf x = s.nextOf x := by
    intro x hxe
    rw [hsB, LinkedList.nextOf_setPrev, LinkedList.nextOf_setNext_ne _ _ _ _ hxe]
    exact alloc_fresh_nextOf s (some v) x
  have hBnext_e : sB.nextOf e = some (s.nodes.length) := by
    rw [hsB, LinkedList.nextOf_setPrev]
    exact LinkedList.nextOf_setNext_self _ _ _ _ hgetAe
  have hBnext_new : sB.nextOf (s.nodes.length) = none := by
    rw [hBnext_other (s.nodes.length) (by omega)]
    unfold LinkedList.nextOf
    rw [List.getElem?_eq_none (Nat.le_refl _)]
    rfl
  have hBprev_other : ∀ x, x ≠ s.nodes.length → sB.prevOf x = s.prevOf x := by
    intro x hxn
    rw [hsB, LinkedList.prevOf_setPrev_ne _ _ _ _ hxn, LinkedList.prevOf_setNext]
    exact alloc_fresh_prevOf s (some v) x
  have hBprev_new : sB.prevOf (s.nodes.length) = some e := by
    rw [hsB]
    apply LinkedList.prevOf_setPrev_self
    show (sA.setNext e (some (s.nodes.length))).getNode (s.nodes.length) = _
    unfold LinkedList.getNode LinkedList.setNext
    rw [modNode_getElem_ne _ _ _ _ (by omega : s.nodes.length ≠ e)]
    exact hgetAnew
  refine ⟨?_, ?_, ?_, ?_, hi, cs.length, by omega, ?_, ?_⟩
  · rw [List.nodup_append]
    refine ⟨hnd, by simp, ?_⟩
    intro x hx hx2
    simp only [List.mem_singleton] at hx2
    rw [hx2] at hx
    have := (hmem _).mp hx
    omega
  · intro i
    have hlen2 : (modNode (fun n => { n with prev := some e })
        (modNode (fun n => { n with next := some (s.nodes.length) })
          (s.nodes ++ [⟨some v, none, none, 0, 0⟩]) e)
        (s.nodes.length)).length = s.nodes.length + 1 := by
      rw [modNode_length, modNode_length]
      simp
    show i ∈ cs ++ [s.nodes.length] ↔ i < _
    rw [List.mem_append, List.mem_singleton]
    constructor
    · intro h
      rcases h with h | h
      · have := (hmem i).mp h
        simp only [hlen2]
        omega
      · simp only [hlen2]
        omega
    · intro h
      simp only [hlen2] at h
      by_cases hcase : i = s.nodes.length
      · right; exact hcase
      · left; exact (hmem i).mpr (by omega)
  · refine NextLinked_congr (s := sB) ?_ _ ?_
    · intro i; rfl
    · exact NextLinked_snoc cs e (s.nodes.length) hnd hnl he
        (fun x _ hxe => hBnext_other x hxe) hBnext_e hBnext_new
  · refine PrevLinked_congr (s := sB) ?_ _ _ ?_
    · intro i; rfl
    · exact PrevLinked_snoc cs none e (s.nodes.length) hpl he
        (fun x hx => hBprev_other x (by have := (hmem x).mp hx; omega)) hBprev_new
  · show (cs ++ [s.nodes.length])[hi]? = some s.head
    rw [List.getElem?_append]
    simp [hilt, hhead]
  · show (cs ++ [s.nodes.length])[cs.length]? = some (s.nodes.length)
    exact List.getElem?_concat_length _ _

/-- `push_front` extends the chain by the new node at the front. -/
theorem chain_push_front (s : LinkedList T) (v : T) (cs : List Nat)
    (hc : ChainOf s cs) : ChainOf (s.push_front v) (s.nodes.length :: cs) := by
  have hc' := hc
  obtain ⟨hnd, hmem, hnl, hpl, hi, hj, hij, hhead, htail⟩ := hc'
  have hjlt : hj < cs.length := (List.getElem?_eq_some.mp htail).1
  have hcs_ne : cs ≠ [] := by
    intro h
    rw [h] at hjlt
    simp at hjlt
  obtain ⟨a0, rest, hcons⟩ : ∃ a0 rest, cs = a0 :: rest := by
    cases cs with
    | nil => exact absurd rfl hcs_ne
    | cons a0 rest => exact ⟨a0, rest, rfl⟩
  have hfront : cs[0]? = some a0 := by rw [hcons]; simp
  have ha0 : a0 ∈ cs := by rw [hcons]; simp
  have ha0lt : a0 < s.nodes.length := (hmem a0).mp ha0
  rw [push_front_runs s v cs a0 hc hfront]
  set sA : LinkedList T :=
    { s with nodes := s.nodes ++ [⟨some v, none, none, 0, 0⟩] } with hsA
  set sB : LinkedList T :=
    (sA.setPrev a0 (some (s.nodes.length))).setNext (s.nodes.length) (some a0)
    with hsB
  have hgetAa0 : sA.getNode a0 = some (s.nodes[a0]) := by
    show (s.nodes ++ [⟨some v, none, none, 0, 0⟩])[a0]? = _
    rw [List.getElem?_append]
    simp [ha0lt, List.getElem?_eq_getElem ha0lt]
  have hgetAnew : sA.getNode (s.nodes.length) = some ⟨some v, none, none, 0, 0⟩ := by
    show (s.nodes ++ [⟨some v, none, none, 0, 0⟩])[s.nodes.length]? = _
    exact List.getElem?_concat_length _ _
  have hBprev_other : ∀ x, x ≠ a0 → sB.prevOf x = s.prevOf x := by
    intro x hxe
    rw [hsB, LinkedList.prevOf_setNext, LinkedList.prevOf_setPrev_ne _ _ _ _ hxe]
    exact alloc_fresh_prevOf s (some v) x
  have hBprev_a0 : sB.prevOf a0 = some (s.nodes.length) := by
    rw [hsB, LinkedList.prevOf_setNext]
    exact LinkedList.prevOf_setPrev_self _ _ _ _ hgetAa0
  have hBprev_new : sB.prevOf (s.nodes.length) = none := by
    rw [hBprev_other (s.nodes.length) (by omega)]
    unfold LinkedList.prevOf
    rw [List.getElem?_eq_none (Nat.le_refl _)]
    rfl
  have hBnext_other : ∀ x, x ≠ s.nodes.length → sB.nextOf x = s.nextOf x := by
    intro x hxn
    rw [hsB, LinkedList.nextOf_setNext_ne _ _ _ _ hxn, LinkedList.nextOf_setPrev]
    exact alloc_fresh_nextOf s (some v) x
  have hBnext_new : sB.nextOf (s.nodes.length) = some a0 := by
    rw [hsB]
    apply LinkedList.nextOf_setNext_self
    show (sA.setPrev a0 (some (s.nodes.length))).getNode (s.nodes.length) = _
    unfold LinkedList.getNode LinkedList.setPrev
    rw [modNode_getElem_ne _ _ _ _ (by omega : s.nodes.length ≠ a0)]
    exact hgetAnew
  refine ⟨?_, ?_, ?_, ?_, 0, hj + 1, by omega, by simp, ?_⟩
  · rw [List.nodup_cons]
    refine ⟨?_, hnd⟩
    intro hx
    have := (hmem _).mp hx
    omega
  · intro i
    have hlen2 : (modNode (fun n => { n with next := some a0 })
        (modNode (fun n => { n with prev := some (s.nodes.length) })
          (s.nodes ++ [⟨some v, none, none, 0, 0⟩]) a0)
        (s.nodes.length)).length = s.nodes.length + 1 := by
      rw [modNode_length, modNode_length]
      simp
    show i ∈ s.nodes.length :: cs ↔ i < _
    rw [List.mem_cons]
    simp only [hlen2]
    constructor
    · intro hcase
      rcases hcase with hcase | hcase
      · omega
      · have := (hmem i).mp hcase
        omega
    · intro hcase
      by_cases hc2 : i = s.nodes.length
      · left; exact hc2
      · right; exact (hmem i).mpr (by omega)
  · refine NextLinked_congr (s := sB) ?_ _ ?_
    · intro i; rfl
    · show NextLinked sB (s.nodes.length :: cs)
      rw [hcons]
      refine ⟨hBnext_new, ?_⟩
      rw [← hcons]
      refine NextLinked_congr_mem (s := s) _ ?_ hnl
      intro x hx
      exact hBnext_other x (by have := (hmem x).mp hx; omega)
  · refine PrevLinked_congr (s := sB) ?_ _ _ ?_
    · intro i; rfl
    · refine ⟨hBprev_new, ?_⟩
      rw [hcons]
      refine ⟨hBprev_a0, ?_⟩
      refine PrevLinked_congr_mem (s := s) _ _ ?_ ?_
      · intro x hx
        apply hBprev_other
        have hx2 : x ∈ rest := hx
        intro hxa
        rw [hcons] at hnd
        rw [hxa] at hx2
        exact (List.nodup_cons.mp hnd).1 hx2
      · have := hpl
        rw [hcons] at this
        exact this.2
  · show (s.nodes.length :: cs)[hj + 1]? = some s.tail
    simpa using htail

/-- Bumping the retire counters changes no link load. -/
theorem bump_getElem_next (ns : List (Node T)) (n i : Nat) :
    ((modNode bumpRetire ns n)[i]?).bind Node.next = (ns[i]?).bind Node.next := by
  by_cases h : i = n
  · subst h
    rw [modNode_getElem_self]
    cases ns[i]? <;> simp [bumpRetire]
  · rw [modNode_getElem_ne _ _ _ _ h]

theorem bump_getElem_prev (ns : List (Node T)) (n i : Nat) :
    ((modNode bumpRetire ns n)[i]?).bind Node.prev = (ns[i]?).bind Node.prev := by
  by_cases h : i = n
  · subst h
    rw [modNode_getElem_self]
    cases ns[i]? <;> simp [bumpRetire]
  · rw [modNode_getElem_ne _ _ _ _ h]

/-- `pop_front` keeps the same chain: it only advances `head` (and possibly
`tail`) along it. -/
theorem chain_pop (s : LinkedList T) (cs : List Nat) (hc : ChainOf s cs) :
    ChainOf ((s.pop_front).1) cs := by
  obtain ⟨hnd, hmem, hnl, hpl, hi, hj, hij, hhead, htail⟩ := hc
  rw [LinkedList.pop_front_eq]
  cases h : s.nextOf s.head with
  | none => exact ⟨hnd, hmem, hnl, hpl, hi, hj, hij, hhead, htail⟩
  | some n =>
    have hpos_n : cs[hi + 1]? = some n :=
      NextLinked_position_succ cs hi s.head n hnl hhead h
    have hmem2 : ∀ i, (i ∈ cs) ↔ i < (modNode bumpRetire s.nodes n).length := by
      intro i
      rw [modNode_length]
      exact hmem i
    have hnl2 : NextLinked
        ({ nodes := modNode bumpRetire s.nodes n, head := n,
           tail := (if s.tail = s.head then n else s.tail),
           len := (s.len + (usizeSize - 1)) % usizeSize } : LinkedList T) cs := by
      refine NextLinked_congr (s := s) ?_ _ hnl
      intro i
      exact bump_getElem_next s.nodes n i
    have hpl2 : PrevLinked
        ({ nodes := modNode bumpRetire s.nodes n, head := n,
           tail := (if s.tail = s.head then n else s.tail),
           len := (s.len + (usizeSize - 1)) % usizeSize } : LinkedList T) none cs := by
      refine PrevLinked_congr (s := s) ?_ _ _ hpl
      intro i
      exact bump_getElem_prev s.nodes n i
    by_cases ht : s.tail = s.head
    · refine ⟨hnd, hmem2, hnl2, hpl2, hi + 1, hi + 1, Nat.le_refl _, hpos_n, ?_⟩
      show cs[hi + 1]? = some (if s.tail = s.head then n else s.tail)
      rw [if_pos ht]
      exact hpos_n
    · have hij2 : hi < hj := by
        rcases Nat.lt_or_ge hi hj with hlt | hge
        · exact hlt
        · have : hi = hj := by omega
          subst this
          rw [hhead] at htail
          simp only [Option.some_inj] at htail
          exact absurd htail.symm ht
      refine ⟨hnd, hmem2, hnl2, hpl2, hi + 1, hj, by omega, hpos_n, ?_⟩
      show cs[hj]? = some (if s.tail = s.head then n else s.tail)
      rw [if_neg ht]
      exact htail

/-- Every reachable state satisfies the chain invariant. -/
theorem reachable_chainInv (s : LinkedList T) (h : Reachable s) : ChainInv s := by
  induction h with
  | init => exact ⟨[0], chain_new⟩
  | step s' op hr ih =>
    obtain ⟨cs, hcs⟩ := ih
    cases op with
    | push_back v => exact ⟨cs ++ [s'.nodes.length], chain_push_back s' v cs hcs⟩
    | push_front v => exact ⟨s'.nodes.length :: cs, chain_push_front s' v cs hcs⟩
    | pop_front => exact ⟨cs, chain_pop s' cs hcs⟩

/-- C7: in every reachable state (single-threaded execution), `push_back(v)`
succeeds: its retry loop terminates and on return `len` has been incremented
by exactly one (`usize` increment), the new node (id `nodes.length`) holds `v`
with a null `next` and a non-null `prev`, and it is the logical last element —
reachable from `head` by following `next` pointers. Moreover, unconditionally,
when the loaded tail's `next` is non-null, `push_back_internal` only attempts
the best-effort CAS advancing `tail` from that node to its `next` and reports
failure (retry) without linking anything. -/
theorem claim_C7_push_back (s : LinkedList T) (v : T) (h : Reachable s) :
    ((s.push_back v).len = (s.len + 1) % usizeSize)
    ∧ ((s.push_back v).head = s.head)
    ∧ (∃ e, (s.push_back v).getNode (s.nodes.length) =
        some ⟨some v, none, some e, 0, 0⟩)
    ∧ (∃ k, nextIter (s.push_back v) ((s.push_back v).head) k =
        some (s.nodes.length))
    ∧ (∀ onto nxt newId, s.nextOf onto = some nxt →
        s.push_back_internal onto newId =
          ((if s.tail = onto then { s with tail := nxt } else s), false)) := by
  obtain ⟨cs, hcs⟩ := reachable_chainInv s h
  have hcs' := hcs
  obtain ⟨hnd, hmem, hnl, hpl, hi, hj, hij, hhead, htail⟩ := hcs'
  have hilt : hi < cs.length := (List.getElem?_eq_some.mp hhead).1
  have hcs_ne : cs ≠ [] := by
    intro hx
    rw [hx] at hilt
    simp at hilt
  obtain ⟨e, he⟩ : ∃ e, cs.getLast? = some e := by
    cases hgl : cs.getLast? with
    | none =>
      have hx := List.getLast?_eq_getLast cs hcs_ne
      rw [hgl] at hx
      exact absurd hx (by simp)
    | some e => exact ⟨e, rfl⟩
  have helt : e < s.nodes.length := (hmem e).mp (List.mem_of_mem_getLast? he)
  have hrun := push_back_runs s v cs e hcs he
  have hc2 := chain_push_back s v cs hcs
  rw [hrun] at hc2
  obtain ⟨_, _, hnl2, _, hi2, hj2, hij2, hhead2, htail2⟩ := hc2
  refine ⟨by rw [hrun], by rw [hrun], ⟨e, ?_⟩, ?_, ?_⟩
  · rw [hrun]
    show (modNode (fun n => { n with prev := some e })
        (modNode (fun n => { n with next := some (s.nodes.length) })
          (s.nodes ++ [⟨some v, none, none, 0, 0⟩]) e) (s.nodes.length))[s.nodes.length]? = _
    rw [modNode_getElem_self, modNode_getElem_ne _ _ _ _ (by omega : s.nodes.length ≠ e)]
    rw [List.getElem?_concat_length]
    rfl
  · rw [hrun]
    refine ⟨hj2 - hi2, ?_⟩
    refine NextLinked_nextIter (hj2 - hi2) (cs ++ [s.nodes.length]) hi2 _ _
      hnl2 hhead2 ?_
    rw [show hi2 + (hj2 - hi2) = hj2 from by omega]
    exact htail2
  · intro onto nxt newId h'
    unfold LinkedList.push_back_internal
    rw [h']

/-- Witness for C7 at the fresh list with `v = 5`. -/
theorem claim_C7_push_back_witness :
    Reachable (LinkedList.new (T := Nat))
    ∧ (((LinkedList.new (T := Nat)).push_back 5).len =
        ((LinkedList.new (T := Nat)).len + 1) % usizeSize
      ∧ (((LinkedList.new (T := Nat)).push_back 5).head =
          (LinkedList.new (T := Nat)).head)
      ∧ (∃ e, ((LinkedList.new (T := Nat)).push_back 5).getNode
          ((LinkedList.new (T := Nat)).nodes.length) =
            some ⟨some 5, none, some e, 0, 0⟩)
      ∧ (∃ k, nextIter ((LinkedList.new (T := Nat)).push_back 5)
          (((LinkedList.new (T := Nat)).push_back 5).head) k =
            some ((LinkedList.new (T := Nat)).nodes.length))
      ∧ (∀ onto nxt newId,
          (LinkedList.new (T := Nat)).nextOf onto = some nxt →
          (LinkedList.new (T := Nat)).push_back_internal onto newId =
            ((if (LinkedList.new (T := Nat)).tail = onto then
                { LinkedList.new (T := Nat) with tail := nxt }
              else LinkedList.new (T := Nat)), false))) :=
  ⟨Reachable.init, claim_C7_push_back (LinkedList.new (T := Nat)) 5 Reachable.init⟩
